import Mathlib

/-!
# Verification of the abaci0 compilation core

A shallow embedding of the type-inference / monomorphization core of the
abaci0 interpreter (`src/utility/Environment.cpp`, `src/engine/Cache.cpp`,
`src/codegen/TypeCodeGen.cpp`, and the return-statement / condition lowering
parts of `src/codegen/StmtCodeGen.cpp`, `src/codegen/ExprCodeGen.cpp`,
`src/engine/JIT.cpp`).

Modelling conventions:
* C++ byte strings (names, mangled keys) are `List Nat` of byte values.
* `AbaciValue::Type` tags are plain `Nat` (Nil 0, Boolean 1, Integer 2,
  Float 3, Complex 4, String 5, Object 6, TypeMask 15, Constant 16,
  Unset 127); bit operations are `&&&` / `|||` as in the source.
* `Environment::DefineScope::Type` is the inductive `Ty` below.
* The mutable scope chain is a persistent list of frames (head = innermost,
  last = global); an association list models each `unordered_map`.
* Fallible code returns `Except Err`; `LogicError` / `UnexpectedError` map to
  the two `Err` constructors carrying the message identifier from
  `src/parser/Messages.hpp`.
* The mutually recursive inference walkers take a fuel argument; fuel
  exhaustion is a distinguished error (real recursion can diverge through
  unbounded monomorphization, so fuel only bounds depth, never changes a
  terminating result).
-/

namespace Abaci

/-- Bytes of an ASCII string, the encoding used for all names. -/
def strBytes (s : String) : List Nat := s.data.map Char.toNat

/-- `AbaciValue::Type` tag values from `src/utility/Utility.hpp`. -/
def NilTag : Nat := 0
def BooleanTag : Nat := 1
def IntegerTag : Nat := 2
def FloatTag : Nat := 3
def ComplexTag : Nat := 4
def StringTag : Nat := 5
def ObjectTag : Nat := 6
def TypeMaskV : Nat := 15
def ConstantFlag : Nat := 16
def UnsetTag : Nat := 127

/-- `Environment::DefineScope::Type`: either a primitive tag (possibly with
the `Constant` bit set) or an object descriptor with class name and member
types (`src/utility/Environment.hpp`). -/
inductive Ty where
  | prim (tag : Nat)
  | obj (className : List Nat) (objectTypes : List Ty)

mutual

/-- `operator==(Environment::DefineScope::Type, Environment::DefineScope::Type)`
from `src/utility/Environment.cpp` lines 149-178: primitive tags compare with
the `Constant` bit masked off; object descriptors compare class name, member
count, then members pairwise. -/
def tyEq : Ty → Ty → Bool
  | .prim a, .prim b => (a &&& 15) == (b &&& 15)
  | .obj c1 m1, .obj c2 m2 =>
      c1 == c2 && (m1.length == m2.length && tyEqList m1 m2)
  | _, _ => false

/-- The member-wise loop of `operator==` (runs over equal-length lists). -/
def tyEqList : List Ty → List Ty → Bool
  | [], _ => true
  | _ :: _, [] => true
  | t :: ts, u :: us => tyEq t u && tyEqList ts us

end

/-- `environmentTypeToType` from `src/utility/Environment.cpp` lines 137-147:
a primitive keeps its masked tag, an object descriptor becomes `Object`. -/
def environmentTypeToType : Ty → Nat
  | .prim n => n &&& 15
  | .obj _ _ => 6

/-- `isalnum` on a byte in the C locale. -/
def isAlnumByte (c : Nat) : Bool :=
  (48 ≤ c && c ≤ 57) || (65 ≤ c && c ≤ 90) || (97 ≤ c && c ≤ 122)

/-- One lowercase hexadecimal digit, as produced by `std::to_chars(..., 16)`. -/
def hexDigitByte (n : Nat) : Nat := if n < 10 then 48 + n else 97 + (n - 10)

/-- Hexadecimal bytes of a byte value (< 256), as `std::to_chars(..., 16)`
writes them (no leading zeros; the escaped characters are 39 or ≥ 128, so one
or two digits suffice). -/
def hexBytes (n : Nat) : List Nat :=
  if n < 16 then [hexDigitByte n] else [hexDigitByte (n / 16), hexDigitByte (n % 16)]

/-- Decimal bytes of a masked tag value (< 100), as `std::to_chars(..., 10)`
writes them. -/
def decBytes (n : Nat) : List Nat :=
  if n < 10 then [48 + n] else [48 + n / 10, 48 + n % 10]

/-- The per-character loop over the function name in `mangled`
(`src/utility/Environment.cpp` lines 97-114): bytes ≥ 0x80 and the apostrophe
(39) are escaped as `'.'` followed by hex digits; alphanumerics, `'_'` (95) and
`'.'` (46) pass through; anything else is the `BadChar` error (`none`). -/
def encNameBytes : List Nat → Option (List Nat)
  | [] => some []
  | c :: cs =>
      if 128 ≤ c || c == 39 then
        (encNameBytes cs).map (fun r => 46 :: (hexBytes c ++ r))
      else if isAlnumByte c || c == 95 || c == 46 then
        (encNameBytes cs).map (fun r => c :: r)
      else
        none

mutual

/-- The parameter-type loop of `mangled`
(`src/utility/Environment.cpp` lines 115-133): each type contributes `'.'`
(46) followed by its encoding.  This is also the value of
`mangled("", object_types)` used for object descriptors, since an empty name
 encodes to nothing (`mangled_nil_name` below). -/
def encTypeList : List Ty → Option (List Nat)
  | [] => some []
  | t :: ts =>
      match encType t, encTypeList ts with
      | some e, some r => some (46 :: (e ++ r))
      | _, _ => none

/-- Encoding of a single parameter type inside `mangled`: a primitive becomes
the decimal digits of its masked tag; an object becomes
`mangled(class_name, {})` ++ `'_'` ++ `mangled("", object_types)` ++ `'_'`.
The two inner `mangled` calls of the source are written here as
`encNameBytes c` and `encTypeList ms`, which they equal (`mangled_nil_types`
and `mangled_nil_name` below). -/
def encType : Ty → Option (List Nat)
  | .prim n => some (decBytes (n &&& 15))
  | .obj c ms =>
      match encNameBytes c, encTypeList ms with
      | some a, some b => some (a ++ 95 :: (b ++ [95]))
      | _, _ => none

end

/-- `mangled(name, types)` from `src/utility/Environment.cpp` lines 95-135:
the encoded name followed by the encoded parameter-type list. `none` models
the thrown `UnexpectedError` (bad character). -/
def mangled (name : List Nat) (types : List Ty) : Option (List Nat) :=
  match encNameBytes name with
  | none => none
  | some base =>
      match encTypeList types with
      | none => none
      | some rest => some (base ++ rest)

/-- `mangled(class_name, {})`, as called for object descriptors, is just the
encoded class name. -/
theorem mangled_nil_types (c : List Nat) : mangled c [] = encNameBytes c := by
  unfold mangled encTypeList
  cases encNameBytes c <;> simp

/-- `mangled("", object_types)`, as called for object descriptors, is just
the encoded member-type list. -/
theorem mangled_nil_name (ms : List Ty) : mangled [] ms = encTypeList ms := by
  unfold mangled encNameBytes
  cases encTypeList ms <;> simp

/-- Byte strings name everything (variables, functions, classes). -/
abbrev Name := List Nat

/-- Message identifiers from `src/parser/Messages.hpp` (only those reachable
from the embedded fragment). -/
inductive Msg where
  | VarExists | VarNotExist | VarType | FuncExists | WrongArgs | FuncNotExist
  | NoInst | CallableNotExist | ReturnAtEnd | ObjectType | FuncTopLevel
  | ReturnOnlyInFunc | FuncTypeSet | NoExpression | NoConstantAssign
  | BadType | NoObject | BadChar | NoBoolean | ClassExists | BadNode
  deriving DecidableEq

/-- Errors: `LogicError*` (user-level), `UnexpectedError*` (internal), plus
fuel exhaustion of the embedding. -/
inductive Err where
  | logicErr (m : Msg)
  | unexpectedErr (m : Msg)
  | outOfFuel
  deriving DecidableEq

/-- The error monad of the embedding (C++ exceptions). -/
abbrev M (α : Type) := Except Err α

/-- One `Environment::DefineScope`'s map (name → static type), as an
insertion-ordered association list. -/
abbrev Frame := List (Name × Ty)

/-- A define-scope chain: head is the current (innermost) scope, the last
element is the global scope. -/
abbrev Chain := List Frame

/-- Lookup in a single frame's map. -/
def frameFind (f : Frame) (x : Name) : Option Ty :=
  (f.find? (fun p => p.1 == x)).map (·.2)

/-- `DefineScope::isDefined`: search this frame, then the enclosing ones. -/
def isDefinedChain (c : Chain) (x : Name) : Bool :=
  c.any (fun f => (frameFind f x).isSome)

/-- `DefineScope::getType`: innermost match wins; `UnexpectedError(VarNotExist)`
at the root. -/
def getTypeChain : Chain → Name → M Ty
  | [], _ => throw (.unexpectedErr .VarNotExist)
  | f :: rest, x =>
      match frameFind f x with
      | some t => pure t
      | none => getTypeChain rest x

/-- `DefineScope::setType` on the current scope: inserting an existing name is
`UnexpectedError(VarExists)`. (The empty-chain case is unreachable: the
current scope pointer is never null.) -/
def setTypeChain : Chain → Name → Ty → M Chain
  | [], _, _ => throw (.unexpectedErr .VarExists)
  | f :: rest, x, t =>
      if (frameFind f x).isSome then throw (.unexpectedErr .VarExists)
      else pure (((x, t) :: f) :: rest)

/-- `DefineScope::getDepth`: number of enclosing scopes (global scope alone
has depth 0). -/
def chainDepth (c : Chain) : Int := (c.length : Int) - 1

/-- The global frame of a chain (`Environment::getGlobalDefineScope`). -/
def globalFrame (c : Chain) : Frame := (c.getLast?).getD []

/-- Operators (`src/utility/Utility.hpp`). -/
inductive Op where
  | NoneOp | Plus | Minus | Times | Divide | Modulo | FloorDivide | Exponent
  | Equal | NotEqual | Less | LessEqual | GreaterEqual | Greater
  | Not | And | Or | Compl | BitAnd | BitOr | BitXor
  | Comma | SemiColon | From | To
  deriving DecidableEq

/-- Expression nodes (`src/ast/Expr.hpp`), restricted to the constructors the
claims exercise (no member access / method-call value nodes).  Flat
`ExprList`s with alternating operand/operator entries are modelled in their
well-formed shape `first (op operand)*`; for `listU` the operator list is in
the source's reversed iteration order, and for `listR` the pairs are in
source order (the walker reverses them like `rbegin`). -/
inductive Expr where
  | value (tag : Nat)
  | var (x : Name)
  | call (f : Name) (args : List Expr)
  | input
  | conv (toType : Nat)
  | listL (first : Expr) (rest : List (Op × Expr))
  | listR (first : Expr) (rest : List (Op × Expr))
  | listU (ops : List Op) (operand : Expr)
  | listB (first : Expr) (rest : List (Op × Expr))

/-- Statement nodes (`src/ast/Stmt.hpp`), restricted to the constructors the
claims exercise.  `ret` carries the mutable `depth` annotation written by the
inference pass (`ReturnStmt::depth`, initially -1). -/
inductive Stmt where
  | comment
  | init (x : Name) (assignOp : Op) (value : Expr)
  | assign (x : Name) (value : Expr)
  | ifS (cond : Expr) (trueBlock : List Stmt) (falseBlock : List Stmt)
  | whileS (cond : Expr) (body : List Stmt)
  | repeatS (body : List Stmt) (cond : Expr)
  | ret (e : Expr) (depth : Int)
  | funcDef (f : Name) (params : List Name) (body : List Stmt)
  | callS (f : Name) (args : List Expr)
  | exprS (e : Expr)

/-- A function template (`Cache::Function`): parameter names and body. -/
structure Fn where
  params : List Name
  body : List Stmt

/-- An entry of `Cache::instantiations` (`Cache::Instantiation`). -/
structure Instantiation where
  name : Name
  parameterTypes : List Ty
  returnType : Ty
  scope : Option Chain

/-- The mutable state threaded through type inference: the current define
scope chain of the `Environment` plus the `Cache` contents. -/
structure St where
  chain : Chain
  funcs : List (Name × Fn)
  classes : List Name
  insts : List Instantiation

/-- The mutable fields of one `TypeCodeGen` object (`type_is_set`,
`return_type`; the latter default-initializes to tag 0). -/
structure RetState where
  typeIsSet : Bool
  returnType : Ty

/-- The per-`TypeCodeGen` flag `is_function`. -/
structure Ctx where
  isFunction : Bool

/-- `Cache::Type` (kind of a cached name). -/
inductive CacheKind where
  | function | classKind | noneKind
  deriving DecidableEq

/-- Lookup of a function template by name. -/
def funcLookup (fs : List (Name × Fn)) (x : Name) : Option Fn :=
  (fs.find? (fun p => p.1 == x)).map (·.2)

/-- `Cache::getCacheType`: functions are consulted before classes. -/
def getCacheTypeSt (st : St) (x : Name) : CacheKind :=
  if (funcLookup st.funcs x).isSome then .function
  else if st.classes.any (· == x) then .classKind
  else .noneKind

/-- `Cache::addFunctionTemplate`: fails if the name is already registered. -/
def addFunctionTemplateM (st : St) (f : Name) (ps : List Name)
    (body : List Stmt) : M St :=
  if (funcLookup st.funcs f).isSome then throw (.logicErr .FuncExists)
  else pure { st with funcs := st.funcs ++ [(f, ⟨ps, body⟩)] }

/-- The mangled key of a cached instantiation. -/
def instKey (i : Instantiation) : Option Name := mangled i.name i.parameterTypes

/-- The duplicate scan of `Cache::addFunctionInstantiation`: is an entry with
this mangled key present? -/
def hasInstKey (insts : List Instantiation) (key : Name) : Bool :=
  insts.any (fun i => instKey i == some key)

/-- The `std::find_if` + `erase` step of `Cache::addFunctionInstantiation`:
remove the first entry with the given mangled key (if any). -/
def eraseFirstInstKey (key : Name) : List Instantiation → List Instantiation
  | [] => []
  | i :: is => if instKey i == some key then is else i :: eraseFirstInstKey key is

/-- `Cache::getFunctionInstantiationType`: the return type of the first entry
with the same mangled key; `UnexpectedError(NoInst)` if absent. -/
def getFunctionInstantiationType (insts : List Instantiation) (name : Name)
    (types : List Ty) : M Ty :=
  match mangled name types with
  | none => throw (.unexpectedErr .BadChar)
  | some key =>
      match insts.find? (fun i => instKey i == some key) with
      | some i => pure i.returnType
      | none => throw (.unexpectedErr .NoInst)

/-- `TypeEvalGen::promote` (`src/codegen/TypeCodeGen.cpp` lines 228-245):
both operands must be primitive; equal raw tags pass through; `Unset` is
absorbing; tags below `String` (5) take the maximum; anything else is a
`BadType` error. -/
def promoteT (a b : Ty) : M Nat :=
  match a, b with
  | .prim x, .prim y =>
      if x = y then pure x
      else if x = 127 ∨ y = 127 then pure 127
      else if x < 5 ∧ y < 5 then pure (max x y)
      else throw (.logicErr .BadType)
  | _, _ => throw (.logicErr .NoObject)

/-- The argument-constification applied when binding parameters (and by
`InitStmt` with `=`): primitive types get the `Constant` bit, object
descriptors are unchanged. -/
def constify : Ty → Ty
  | .prim n => .prim (n ||| 16)
  | o => o

/-- Bind parameters to (constified) argument types in the fresh callee scope,
in order; a duplicate parameter name is `UnexpectedError(VarExists)` from
`setType`.  (The source loop indexes the argument array by the parameter
count; the well-formed equal-length case is the only one reachable, since
`addFunctionInstantiation` checks the count.) -/
def bindParams : Chain → List Name → List Ty → M Chain
  | c, [], _ => pure c
  | c, _ :: _, [] => pure c
  | c, p :: ps, t :: ts => do
      let c' ← setTypeChain c p (constify t)
      bindParams c' ps ts

/-- The reserved return-slot name (the literal `"_return"` used in
`src/codegen/ExprCodeGen.cpp`). -/
def RETURN_VAR : Name := strBytes "_return"

/-- `Environment::beginDefineScope()` with no parent argument. -/
def pushFrame (st : St) : St := { st with chain := ([] : Frame) :: st.chain }

/-- `Environment::endDefineScope()`. -/
def popFrameSt (st : St) : St := { st with chain := st.chain.tail }

/-- Is this statement a `ReturnStmt` (the `dynamic_cast` test)? -/
def isRetStmt : Stmt → Bool
  | .ret _ _ => true
  | _ => false

/-- Is this type the bare `Unset` primitive (the guard in
`TypeCodeGen::codeGen(ReturnStmt)`)? -/
def isUnsetPrim : Ty → Bool
  | .prim n => n == 127
  | _ => false

/-- Is this type a `Constant`-flagged primitive (the guard in
`TypeCodeGen::codeGen(AssignStmt)`)? -/
def isConstPrim : Ty → Bool
  | .prim n => (n &&& 16) != 0
  | _ => false

mutual

/-- `TypeEvalGen::operator()` (`src/codegen/TypeCodeGen.cpp` lines 40-226):
one static type per expression node, threading the environment/cache state.
The push/pop value stack of the source is the returned type. -/
def typeEvalExpr : Nat → St → Expr → M (St × Ty)
  | 0, _, _ => throw .outOfFuel
  | fuel + 1, st, e =>
      match e with
      | .value tag => pure (st, .prim tag)
      | .var x =>
          if ¬ isDefinedChain st.chain x then throw (.logicErr .VarNotExist)
          else do
            let t ← getTypeChain st.chain x
            match t with
            | .prim n => pure (st, .prim (n &&& 15))
            | o => pure (st, o)
      | .call f args =>
          match getCacheTypeSt st f with
          | .function =>
              match funcLookup st.funcs f with
              | some fn => instantiateCall fuel st f fn args
              | none => throw (.unexpectedErr .FuncNotExist)
          | .classKind => do
              let r ← typeEvalArgs fuel st args
              pure (r.1, Ty.obj f r.2)
          | .noneKind => throw (.logicErr .CallableNotExist)
      | .input => pure (st, .prim 5)
      | .conv t => pure (st, .prim t)
      | .listL first rest => do
          let r ← typeEvalExpr fuel st first
          typeEvalChainL fuel r.1 r.2 rest
      | .listR first rest => do
          match (⟨Op.NoneOp, first⟩ :: rest).reverse with
          | [] => throw (.unexpectedErr .BadNode)
          | last :: prior => do
              let r ← typeEvalExpr fuel st last.2
              typeEvalChainR fuel r.1 r.2 prior
      | .listU ops operand => do
          let r ← typeEvalExpr fuel st operand
          pure (r.1, ops.foldl (fun t op => if op = Op.Not then Ty.prim 1 else t) r.2)
      | .listB first rest => do
          let r ← typeEvalExpr fuel st first
          pure (r.1, if rest.isEmpty then r.2 else Ty.prim 1)

/-- Argument evaluation: one fresh `TypeEvalGen` per argument, sharing the
environment and cache. -/
def typeEvalArgs : Nat → St → List Expr → M (St × List Ty)
  | 0, _, _ => throw .outOfFuel
  | _ + 1, st, [] => pure (st, [])
  | fuel + 1, st, e :: es => do
      let r ← typeEvalExpr fuel st e
      let r₂ ← typeEvalArgs fuel r.1 es
      pure (r₂.1, r.2 :: r₂.2)

/-- The left-associative fold (`TypeCodeGen.cpp` lines 166-181): promote the
running type with each operand; a true division whose promoted type is
`Integer` yields `Float`. -/
def typeEvalChainL : Nat → St → Ty → List (Op × Expr) → M (St × Ty)
  | 0, _, _, _ => throw .outOfFuel
  | _ + 1, st, t, [] => pure (st, t)
  | fuel + 1, st, t, i :: rest => do
      let r ← typeEvalExpr fuel st i.2
      let nt ← promoteT t r.2
      let nt := if nt = 2 ∧ i.1 = Op.Divide then 3 else nt
      typeEvalChainL fuel r.1 (.prim nt) rest

/-- The right-associative fold (`TypeCodeGen.cpp` lines 182-194): walk the
reversed items, promoting through `Float` then with the operand (operators
are skipped). -/
def typeEvalChainR : Nat → St → Ty → List (Op × Expr) → M (St × Ty)
  | 0, _, _, _ => throw .outOfFuel
  | _ + 1, st, t, [] => pure (st, t)
  | fuel + 1, st, t, i :: rest => do
      let r ← typeEvalExpr fuel st i.2
      let t₁ ← promoteT t (.prim 3)
      let t₂ ← promoteT (.prim t₁) r.2
      typeEvalChainR fuel r.1 (.prim t₂) rest

/-- The shared instantiation sequence of `TypeEvalGen`'s `CallNode` case and
`TypeCodeGen::codeGen(FunctionCall)`: evaluate arguments, open a fresh scope
chained to the global one, bind constified parameters, instantiate, read the
cached return type, set the return slot's type, restore the caller scope. -/
def instantiateCall : Nat → St → Name → Fn → List Expr → M (St × Ty)
  | 0, _, _, _, _ => throw .outOfFuel
  | fuel + 1, st, f, fn, args => do
      let r ← typeEvalArgs fuel st args
      let saved := r.1.chain
      let c₂ ← bindParams [([] : Frame), globalFrame r.1.chain] fn.params r.2
      let st₃ ← addFunctionInstantiation fuel { r.1 with chain := c₂ } f r.2
      let rt ← getFunctionInstantiationType st₃.insts f r.2
      let _ ← setTypeChain st₃.chain RETURN_VAR rt
      pure ({ st₃ with chain := saved }, rt)

/-- `Cache::addFunctionInstantiation` (`src/engine/Cache.cpp` lines 31-64):
on a fresh mangled key, push a placeholder entry with return type `Unset`,
type-check the template body with a fresh `TypeCodeGen` (`is_function` true),
then erase the first entry with the key and push the final entry carrying the
inferred return type and the current scope.  An existing key is a no-op. -/
def addFunctionInstantiation : Nat → St → Name → List Ty → M St
  | 0, _, _, _ => throw .outOfFuel
  | fuel + 1, st, name, types =>
      match funcLookup st.funcs name with
      | none => throw (.logicErr .FuncNotExist)
      | some fn =>
          if types.length = fn.params.length then
            match mangled name types with
            | none => throw (.unexpectedErr .BadChar)
            | some key =>
              if hasInstKey st.insts key then pure st
              else do
                let st₁ := { st with insts :=
                  st.insts ++ [⟨name, types, .prim 127, none⟩] }
                let r ← typeStmtList fuel ⟨true⟩ st₁ ⟨false, .prim 0⟩ fn.body
                let rt := if r.2.1.typeIsSet then r.2.1.returnType else Ty.prim 0
                pure { r.1 with insts :=
                  eraseFirstInstKey key r.1.insts ++
                    [⟨name, types, rt, some r.1.chain⟩] }
          else throw (.logicErr .WrongArgs)

/-- `TypeCodeGen::operator()(StmtNode)` dispatch plus the per-statement
`codeGen` overloads (`src/codegen/TypeCodeGen.cpp`).  Returns the updated
state, the updated return-type fields, and the statement with `ReturnStmt`
depth annotations filled in. -/
def typeStmt : Nat → Ctx → St → RetState → Stmt → M (St × RetState × Stmt)
  | 0, _, _, _, _ => throw .outOfFuel
  | fuel + 1, ctx, st, rs, s =>
      match s with
      | .comment => pure (st, rs, .comment)
      | .init x op e =>
          if isDefinedChain st.chain x then throw (.logicErr .VarExists)
          else do
            let r ← typeEvalExpr fuel st e
            let t := if op = Op.Equal then constify r.2 else r.2
            let c' ← setTypeChain r.1.chain x t
            pure ({ r.1 with chain := c' }, rs, .init x op e)
      | .assign x e =>
          if ¬ isDefinedChain st.chain x then throw (.logicErr .VarNotExist)
          else do
            let t₀ ← getTypeChain st.chain x
            if isConstPrim t₀ then throw (.logicErr .NoConstantAssign)
            else do
              let r ← typeEvalExpr fuel st e
              let existing ← getTypeChain r.1.chain x
              match r.2, existing with
              | .prim a, .prim b =>
                  if a ≠ b then throw (.logicErr .VarType)
                  else pure (r.1, rs, .assign x e)
              | .obj c1 m1, .obj c2 m2 =>
                  if c1 ≠ c2 ∨ tyEq (.obj c1 m1) (.obj c2 m2) = false then
                    throw (.logicErr .ObjectType)
                  else pure (r.1, rs, .assign x e)
              | _, _ => pure (r.1, rs, .assign x e)
      | .ifS cond tb fb => do
          let r ← typeEvalExpr fuel st cond
          let r₂ ← typeStmtList fuel ctx r.1 rs tb
          let r₃ ← typeStmtList fuel ctx r₂.1 r₂.2.1 fb
          pure (r₃.1, r₃.2.1, .ifS cond r₂.2.2 r₃.2.2)
      | .whileS cond body => do
          let r ← typeEvalExpr fuel (pushFrame st) cond
          let r₂ ← typeStmts fuel ctx r.1 rs body
          pure (popFrameSt r₂.1, r₂.2.1, .whileS cond r₂.2.2)
      | .repeatS body cond => do
          let r ← typeStmts fuel ctx (pushFrame st) rs body
          let r₂ ← typeEvalExpr fuel r.1 cond
          pure (popFrameSt r₂.1, r.2.1, .repeatS r.2.2 cond)
      | .ret e _ =>
          if ¬ ctx.isFunction then throw (.logicErr .ReturnOnlyInFunc)
          else do
            let r ← typeEvalExpr fuel st e
            if isUnsetPrim r.2 then
              pure (r.1, rs, .ret e (chainDepth r.1.chain))
            else
              if rs.typeIsSet && ! tyEq r.2 rs.returnType then
                throw (.logicErr .FuncTypeSet)
              else
                pure (r.1, ⟨true, r.2⟩, .ret e (chainDepth r.1.chain))
      | .funcDef f ps body =>
          if 1 < st.chain.length then throw (.logicErr .FuncTopLevel)
          else do
            let st' ← addFunctionTemplateM st f ps body
            pure (st', rs, .funcDef f ps body)
      | .callS f args =>
          match funcLookup st.funcs f with
          | none => throw (.unexpectedErr .FuncNotExist)
          | some fn => do
              let r ← instantiateCall fuel st f fn args
              pure (r.1, rs, .callS f args)
      | .exprS _ => throw (.logicErr .NoExpression)

/-- The bare statement loops of `codeGen(WhileStmt)` / `codeGen(RepeatStmt)`:
each statement walked individually, without the return-placement check. -/
def typeStmts : Nat → Ctx → St → RetState → List Stmt → M (St × RetState × List Stmt)
  | 0, _, _, _, _ => throw .outOfFuel
  | _ + 1, _, st, rs, [] => pure (st, rs, [])
  | fuel + 1, ctx, st, rs, s :: rest => do
      let r ← typeStmt fuel ctx st rs s
      let r₂ ← typeStmts fuel ctx r.1 r.2.1 rest
      pure (r₂.1, r₂.2.1, r.2.2 :: r₂.2.2)

/-- The checked loop inside `TypeCodeGen::operator()(StmtList)`: a
`ReturnStmt` that is not the final statement is `LogicError(ReturnAtEnd)`. -/
def typeStmtsChecked : Nat → Ctx → St → RetState → List Stmt → M (St × RetState × List Stmt)
  | 0, _, _, _, _ => throw .outOfFuel
  | _ + 1, _, st, rs, [] => pure (st, rs, [])
  | fuel + 1, ctx, st, rs, s :: rest =>
      if isRetStmt s && ! rest.isEmpty then throw (.logicErr .ReturnAtEnd)
      else do
        let r ← typeStmt fuel ctx st rs s
        let r₂ ← typeStmtsChecked fuel ctx r.1 r.2.1 rest
        pure (r₂.1, r₂.2.1, r.2.2 :: r₂.2.2)

/-- `TypeCodeGen::operator()(StmtList)` (`TypeCodeGen.cpp` lines 247-258):
a non-empty list opens a define scope, walks the statements with the
return-placement check, and closes the scope. -/
def typeStmtList : Nat → Ctx → St → RetState → List Stmt → M (St × RetState × List Stmt)
  | 0, _, _, _, _ => throw .outOfFuel
  | fuel + 1, ctx, st, rs, stmts =>
      if stmts.isEmpty then pure (st, rs, stmts)
      else do
        let r ← typeStmtsChecked fuel ctx (pushFrame st) rs stmts
        pure (popFrameSt r.1, r.2.1, r.2.2)

end

/-!
## Code-generation fragment

Only the parts of the second (emitting) pass that the claims are about:
condition lowering to Boolean (`ExprCodeGen::toBoolean` and the condition
handling of `StmtCodeGen::codeGen(IfStmt)`), and the instruction sequence
emitted for a `ReturnStmt` (`StmtCodeGen::codeGen(ReturnStmt)`, with the
per-function entry depth passed by `JIT::initialize`).  Native values are
represented symbolically. -/

/-- A symbolic LLVM value: an opaque input, or one of the comparison shapes
the lowering emits (`CreateICmpNE(.., 0)`, `CreateFCmpONE(.., 0.0)`, and the
loaded `String` length field). -/
inductive IRVal where
  | sym (n : Nat)
  | icmpNeZero (v : IRVal)
  | fcmpNeZero (v : IRVal)
  | strLen (v : IRVal)
  deriving DecidableEq

/-- `ExprCodeGen::toBoolean` (`src/codegen/ExprCodeGen.cpp` lines 971-992):
Boolean passes through; Integer / Float compare not-equal to zero; String
compares its length not-equal to zero; every other type is the
`UnexpectedError(NoBoolean)`. -/
def toBoolean (v : IRVal) (t : Ty) : M IRVal :=
  match environmentTypeToType t with
  | 1 => pure v
  | 2 => pure (.icmpNeZero v)
  | 3 => pure (.fcmpNeZero v)
  | 5 => pure (.icmpNeZero (.strLen v))
  | _ => throw (.unexpectedErr .NoBoolean)

/-- The condition handling shared by `codeGen(IfStmt)`, `codeGen(WhileStmt)`
and `codeGen(RepeatStmt)` (`src/codegen/StmtCodeGen.cpp`): a Boolean-typed
value is used directly, anything else goes through `toBoolean`. -/
def ifCondLower (v : IRVal) (t : Ty) : M IRVal :=
  if environmentTypeToType t = 1 then pure v else toBoolean v t

/-- Observable runtime calls emitted by the statement code generator. -/
inductive Emit where
  | setVariable (name : Name) (isNew : Bool)
  | endScope
  | beginScope
  | brExit
  deriving DecidableEq

/-- `StmtCodeGen::codeGen(ReturnStmt)` (`src/codegen/StmtCodeGen.cpp` lines
353-371): after the expression's own code, store the result into the
`"_return"` slot via `setVariable(...)` with `isNew = false`, then run
`endScope` for `i = depth; i < return_stmt.depth - 1`, then branch to the
function's exit block.  `entryDepth` is the `depth` member of `StmtCodeGen`,
which `JIT::initialize` sets to `instantiation.scope->getDepth()`. -/
def codeGenReturn (exprCode : List Emit) (entryDepth recorded : Int) : List Emit :=
  exprCode ++ [Emit.setVariable RETURN_VAR false] ++
    List.replicate (recorded - 1 - entryDepth).toNat Emit.endScope ++ [Emit.brExit]

/-- The per-function entry depth `JIT::initialize` passes to `StmtCodeGen`
(`src/engine/JIT.cpp` line 80): `instantiation.scope->getDepth()`. -/
def instantiationEntryDepth (inst : Instantiation) : Int :=
  match inst.scope with
  | some c => chainDepth c
  | none => 0

/-!
## Proof infrastructure
-/

theorem throw_def {α : Type} (e : Err) : (throw e : M α) = Except.error e := rfl

theorem pure_def {α : Type} (a : α) : (pure a : M α) = Except.ok a := rfl

theorem mbind_ok {α β : Type} {m : M α} {f : α → M β} {b : β} :
    (m >>= f) = Except.ok b ↔ ∃ a, m = Except.ok a ∧ f a = Except.ok b := by
  cases m with
  | error e => simp [Bind.bind, Except.bind]
  | ok a => simp [Bind.bind, Except.bind]

/-- Number of cached instantiations carrying a given mangled key. -/
def countKey (k : Name) (l : List Instantiation) : Nat :=
  (l.filter (fun i => instKey i == some k)).length

/-- Every mangled key occurs at most once in the instantiation table. -/
def uniqueKeys (l : List Instantiation) : Prop := ∀ k, countKey k l ≤ 1

theorem countKey_append (k : Name) (l₁ l₂ : List Instantiation) :
    countKey k (l₁ ++ l₂) = countKey k l₁ + countKey k l₂ := by
  simp [countKey, List.filter_append]

theorem hasInstKey_iff_countKey_pos (l : List Instantiation) (k : Name) :
    hasInstKey l k = true ↔ 0 < countKey k l := by
  induction l with
  | nil => simp [hasInstKey, countKey]
  | cons i is ih =>
      by_cases h : instKey i == some k
      · simp [hasInstKey, countKey, List.filter_cons, h]
      · simpa [hasInstKey, countKey, List.filter_cons, h] using ih

theorem countKey_eraseFirst_self (k : Name) (l : List Instantiation) :
    countKey k (eraseFirstInstKey k l) = countKey k l - 1 := by
  induction l with
  | nil => simp [eraseFirstInstKey, countKey]
  | cons i is ih =>
      by_cases h : instKey i == some k
      · simp [eraseFirstInstKey, countKey, List.filter_cons, h]
      · simpa [eraseFirstInstKey, countKey, List.filter_cons, h] using ih

theorem countKey_eraseFirst_ne {k k' : Name} (hne : k' ≠ k)
    (l : List Instantiation) :
    countKey k' (eraseFirstInstKey k l) = countKey k' l := by
  induction l with
  | nil => simp [eraseFirstInstKey]
  | cons i is ih =>
      by_cases h : instKey i == some k
      · have h' : (instKey i == some k') = false := by
          rcases beq_iff_eq.mp h with h
          simp only [h]
          simpa using fun hc => hne (by simpa using hc.symm)
        simp [eraseFirstInstKey, countKey, List.filter_cons, h, h']
      · by_cases h2 : instKey i == some k'
        · simp only [countKey, List.filter_cons] at ih ⊢
          simp [eraseFirstInstKey, h, h2, ih]
        · simp only [countKey, List.filter_cons] at ih ⊢
          simp [eraseFirstInstKey, h, h2, ih]

theorem funcLookup_append_of_some {fs : List (Name × Fn)} {f : Name} {fn : Fn}
    (h : funcLookup fs f = some fn) (more : List (Name × Fn)) :
    funcLookup (fs ++ more) f = some fn := by
  unfold funcLookup at h ⊢
  rcases hf : fs.find? (fun p => p.1 == f) with _ | p
  · simp [hf] at h
  · rw [List.find?_append, hf]
    simpa [hf] using h

/-- State-evolution invariant of every successful inference walk: known
function templates are preserved, cached instantiation keys are never lost,
and key uniqueness of the instantiation table is maintained. -/
def Pres (st st' : St) : Prop :=
  (∀ f fn, funcLookup st.funcs f = some fn → funcLookup st'.funcs f = some fn) ∧
  (∀ k, hasInstKey st.insts k = true → hasInstKey st'.insts k = true) ∧
  (uniqueKeys st.insts → uniqueKeys st'.insts)

theorem presRefl (st : St) : Pres st st :=
  ⟨fun _ _ h => h, fun _ h => h, fun h => h⟩

theorem presTrans {s1 s2 s3 : St} (h1 : Pres s1 s2) (h2 : Pres s2 s3) :
    Pres s1 s3 :=
  ⟨fun f fn h => h2.1 f fn (h1.1 f fn h),
   fun k h => h2.2.1 k (h1.2.1 k h),
   fun h => h2.2.2 (h1.2.2 h)⟩

theorem presOfFields {st st' : St} (hf : st'.funcs = st.funcs)
    (hi : st'.insts = st.insts) : Pres st st' := by
  refine ⟨?_, ?_, ?_⟩ <;> simp [hf, hi]

/-- The expression walkers never change the current define-scope chain: every
path through `TypeEvalGen` either leaves the environment alone or saves and
restores the caller's scope around an instantiation. -/
theorem evalsPreserveChain (fuel : Nat) :
    (∀ st e r, typeEvalExpr fuel st e = .ok r → r.1.chain = st.chain) ∧
    (∀ st es r, typeEvalArgs fuel st es = .ok r → r.1.chain = st.chain) ∧
    (∀ st t l r, typeEvalChainL fuel st t l = .ok r → r.1.chain = st.chain) ∧
    (∀ st t l r, typeEvalChainR fuel st t l = .ok r → r.1.chain = st.chain) ∧
    (∀ st f fn args r, instantiateCall fuel st f fn args = .ok r →
      r.1.chain = st.chain) := by
  induction fuel with
  | zero =>
      refine ⟨?_, ?_, ?_, ?_, ?_⟩
      · intro st e r h; simp [typeEvalExpr, throw_def] at h
      · intro st es r h; simp [typeEvalArgs, throw_def] at h
      · intro st t l r h; simp [typeEvalChainL, throw_def] at h
      · intro st t l r h; simp [typeEvalChainR, throw_def] at h
      · intro st f fn args r h; simp [instantiateCall, throw_def] at h
  | succ n ih =>
      obtain ⟨ihE, ihA, ihL, ihR, ihC⟩ := ih
      refine ⟨?_, ?_, ?_, ?_, ?_⟩
      · intro st e r h
        cases e with
        | value tag =>
            simp only [typeEvalExpr, pure_def, Except.ok.injEq] at h
            subst h; rfl
        | var x =>
            simp only [typeEvalExpr] at h
            split at h
            · simp [throw_def] at h
            · simp only [mbind_ok] at h
              obtain ⟨t, _, h2⟩ := h
              split at h2 <;>
                (simp only [pure_def, Except.ok.injEq] at h2; subst h2; rfl)
        | call f args =>
            simp only [typeEvalExpr] at h
            split at h
            · split at h
              · exact ihC _ _ _ _ _ h
              · simp [throw_def] at h
            · simp only [mbind_ok] at h
              obtain ⟨a, h1, h2⟩ := h
              simp only [pure_def, Except.ok.injEq] at h2
              subst h2
              exact ihA st args a h1
            · simp [throw_def] at h
        | input =>
            simp only [typeEvalExpr, pure_def, Except.ok.injEq] at h
            subst h; rfl
        | conv t =>
            simp only [typeEvalExpr, pure_def, Except.ok.injEq] at h
            subst h; rfl
        | listL first rest =>
            simp only [typeEvalExpr, mbind_ok] at h
            obtain ⟨a, h1, h2⟩ := h
            exact (ihL _ _ _ _ h2).trans (ihE _ _ _ h1)
        | listR first rest =>
            simp only [typeEvalExpr] at h
            split at h
            · simp [throw_def] at h
            · simp only [mbind_ok] at h
              obtain ⟨a, h1, h2⟩ := h
              exact (ihR _ _ _ _ h2).trans (ihE _ _ _ h1)
        | listU ops operand =>
            simp only [typeEvalExpr, mbind_ok] at h
            obtain ⟨a, h1, h2⟩ := h
            simp only [pure_def, Except.ok.injEq] at h2
            subst h2
            exact ihE st operand a h1
        | listB first rest =>
            simp only [typeEvalExpr, mbind_ok] at h
            obtain ⟨a, h1, h2⟩ := h
            simp only [pure_def, Except.ok.injEq] at h2
            subst h2
            exact ihE st first a h1
      · intro st es r h
        cases es with
        | nil =>
            simp only [typeEvalArgs, pure_def, Except.ok.injEq] at h
            subst h; rfl
        | cons e es =>
            simp only [typeEvalArgs, mbind_ok] at h
            obtain ⟨a, h1, b, h2, h3⟩ := h
            simp only [pure_def, Except.ok.injEq] at h3
            subst h3
            exact (ihA _ _ _ h2).trans (ihE _ _ _ h1)
      · intro st t l r h
        cases l with
        | nil =>
            simp only [typeEvalChainL, pure_def, Except.ok.injEq] at h
            subst h; rfl
        | cons i rest =>
            simp only [typeEvalChainL, mbind_ok] at h
            obtain ⟨a, h1, b, _, h3⟩ := h
            exact (ihL _ _ _ _ h3).trans (ihE _ _ _ h1)
      · intro st t l r h
        cases l with
        | nil =>
            simp only [typeEvalChainR, pure_def, Except.ok.injEq] at h
            subst h; rfl
        | cons i rest =>
            simp only [typeEvalChainR, mbind_ok] at h
            obtain ⟨a, h1, b, _, c, _, h4⟩ := h
            exact (ihR _ _ _ _ h4).trans (ihE _ _ _ h1)
      · intro st f fn args r h
        simp only [instantiateCall, mbind_ok] at h
        obtain ⟨a, h1, b, _, c, _, d, _, e, _, h6⟩ := h
        simp only [pure_def, Except.ok.injEq] at h6
        subst h6
        exact ihA st args a h1

theorem countKey_singleton (k : Name) (i : Instantiation) :
    countKey k [i] = if instKey i == some k then 1 else 0 := by
  by_cases h : instKey i == some k <;> simp [countKey, List.filter_cons, h]

theorem presChain (st : St) (c : Chain) : Pres st { st with chain := c } :=
  presOfFields rfl rfl

theorem presAddTemplate {st st' : St} {f : Name} {ps : List Name}
    {body : List Stmt} (h : addFunctionTemplateM st f ps body = .ok st') :
    Pres st st' := by
  unfold addFunctionTemplateM at h
  split at h
  · simp [throw_def] at h
  · simp only [pure_def, Except.ok.injEq] at h
    subst h
    exact ⟨fun g gn hg => funcLookup_append_of_some hg _, fun _ hk => hk, fun hu => hu⟩

/-- Invariant bookkeeping of the fresh branch of
`Cache::addFunctionInstantiation`: pushing the `Unset` placeholder, walking
the body (whose net effect satisfies `Pres`), erasing the first entry with
the key and appending the final entry together satisfy `Pres`. -/
theorem presAddFIFinal {st st₂ : St} {name : Name} {types : List Ty}
    {key : Name} {rt : Ty}
    (hkey : mangled name types = some key)
    (hfresh : hasInstKey st.insts key = false)
    (hP : Pres { st with insts :=
      st.insts ++ [⟨name, types, .prim 127, none⟩] } st₂) :
    Pres st { st₂ with insts := eraseFirstInstKey key st₂.insts ++
      [⟨name, types, rt, some st₂.chain⟩] } := by
  have hpk : instKey (⟨name, types, Ty.prim 127, none⟩ : Instantiation)
      = some key := by simp [instKey, hkey]
  have hfk : instKey (⟨name, types, rt, some st₂.chain⟩ : Instantiation)
      = some key := by simp [instKey, hkey]
  have hzero : countKey key st.insts = 0 := by
    by_contra hne
    have hpos : 0 < countKey key st.insts := Nat.pos_of_ne_zero hne
    have := (hasInstKey_iff_countKey_pos st.insts key).mpr hpos
    rw [hfresh] at this
    exact Bool.false_ne_true this
  refine ⟨?_, ?_, ?_⟩
  · intro g gn hg
    exact hP.1 g gn hg
  · intro k hk
    have hkkey : k ≠ key := by
      intro hkk
      rw [hkk, hfresh] at hk
      exact Bool.false_ne_true hk
    have hmid : hasInstKey (st.insts ++ [⟨name, types, Ty.prim 127, none⟩]) k
        = true := by
      rw [hasInstKey_iff_countKey_pos, countKey_append]
      have := (hasInstKey_iff_countKey_pos st.insts k).mp hk
      omega
    have h₂ := hP.2.1 k hmid
    rw [hasInstKey_iff_countKey_pos] at h₂ ⊢
    rw [countKey_append, countKey_eraseFirst_ne hkkey]
    omega
  · intro hu
    have humid : uniqueKeys (st.insts ++ [⟨name, types, Ty.prim 127, none⟩]) := by
      intro k
      rw [countKey_append, countKey_singleton, hpk]
      by_cases hk : k = key
      · subst hk
        simp [hzero]
      · have hb : (some key == some k) = false :=
          beq_eq_false_iff_ne.mpr (by simpa using fun h => hk h.symm)
        rw [hb]
        simp only [Bool.false_eq_true, if_false]
        have := hu k
        omega
    have hu₂ := hP.2.2 humid
    intro k
    rw [countKey_append, countKey_singleton, hfk]
    by_cases hk : k = key
    · subst hk
      have h1 := hu₂ k
      have h2 := countKey_eraseFirst_self k st₂.insts
      simp only [beq_self_eq_true, if_true]
      omega
    · have hb : (some key == some k) = false :=
        beq_eq_false_iff_ne.mpr (by simpa using fun h => hk h.symm)
      rw [hb, countKey_eraseFirst_ne hk]
      simp only [Bool.false_eq_true, if_false]
      have := hu₂ k
      omega

/-- The master invariant theorem: every successful walk of the inference
engine preserves known function templates, never loses a cached
instantiation key, and maintains key uniqueness of the instantiation
table. -/
theorem walkersPreserve (fuel : Nat) :
    (∀ st e r, typeEvalExpr fuel st e = .ok r → Pres st r.1) ∧
    (∀ st es r, typeEvalArgs fuel st es = .ok r → Pres st r.1) ∧
    (∀ st t l r, typeEvalChainL fuel st t l = .ok r → Pres st r.1) ∧
    (∀ st t l r, typeEvalChainR fuel st t l = .ok r → Pres st r.1) ∧
    (∀ st f fn args r, instantiateCall fuel st f fn args = .ok r →
      Pres st r.1) ∧
    (∀ st name types st', addFunctionInstantiation fuel st name types = .ok st' →
      Pres st st') ∧
    (∀ ctx st rs s r, typeStmt fuel ctx st rs s = .ok r → Pres st r.1) ∧
    (∀ ctx st rs l r, typeStmts fuel ctx st rs l = .ok r → Pres st r.1) ∧
    (∀ ctx st rs l r, typeStmtsChecked fuel ctx st rs l = .ok r → Pres st r.1) ∧
    (∀ ctx st rs l r, typeStmtList fuel ctx st rs l = .ok r → Pres st r.1) := by
  induction fuel with
  | zero =>
      refine ⟨?_, ?_, ?_, ?_, ?_, ?_, ?_, ?_, ?_, ?_⟩
      · intro st e r h; simp [typeEvalExpr, throw_def] at h
      · intro st es r h; simp [typeEvalArgs, throw_def] at h
      · intro st t l r h; simp [typeEvalChainL, throw_def] at h
      · intro st t l r h; simp [typeEvalChainR, throw_def] at h
      · intro st f fn args r h; simp [instantiateCall, throw_def] at h
      · intro st name types st' h; simp [addFunctionInstantiation, throw_def] at h
      · intro ctx st rs s r h; simp [typeStmt, throw_def] at h
      · intro ctx st rs l r h; simp [typeStmts, throw_def] at h
      · intro ctx st rs l r h; simp [typeStmtsChecked, throw_def] at h
      · intro ctx st rs l r h; simp [typeStmtList, throw_def] at h
  | succ n ih =>
      obtain ⟨ihE, ihA, ihL, ihR, ihC, ihF, ihS, ihSS, ihSC, ihSL⟩ := ih
      refine ⟨?_, ?_, ?_, ?_, ?_, ?_, ?_, ?_, ?_, ?_⟩
      · intro st e r h
        cases e with
        | value tag =>
            simp only [typeEvalExpr, pure_def, Except.ok.injEq] at h
            subst h; exact presRefl st
        | var x =>
            simp only [typeEvalExpr] at h
            split at h
            · simp [throw_def] at h
            · simp only [mbind_ok] at h
              obtain ⟨t, _, h2⟩ := h
              split at h2 <;>
                (simp only [pure_def, Except.ok.injEq] at h2; subst h2;
                 exact presRefl st)
        | call f args =>
            simp only [typeEvalExpr] at h
            split at h
            · split at h
              · exact ihC _ _ _ _ _ h
              · simp [throw_def] at h
            · simp only [mbind_ok] at h
              obtain ⟨a, h1, h2⟩ := h
              simp only [pure_def, Except.ok.injEq] at h2
              subst h2
              exact ihA st args a h1
            · simp [throw_def] at h
        | input =>
            simp only [typeEvalExpr, pure_def, Except.ok.injEq] at h
            subst h; exact presRefl st
        | conv t =>
            simp only [typeEvalExpr, pure_def, Except.ok.injEq] at h
            subst h; exact presRefl st
        | listL first rest =>
            simp only [typeEvalExpr, mbind_ok] at h
            obtain ⟨a, h1, h2⟩ := h
            exact presTrans (ihE _ _ _ h1) (ihL _ _ _ _ h2)
        | listR first rest =>
            simp only [typeEvalExpr] at h
            split at h
            · simp [throw_def] at h
            · simp only [mbind_ok] at h
              obtain ⟨a, h1, h2⟩ := h
              exact presTrans (ihE _ _ _ h1) (ihR _ _ _ _ h2)
        | listU ops operand =>
            simp only [typeEvalExpr, mbind_ok] at h
            obtain ⟨a, h1, h2⟩ := h
            simp only [pure_def, Except.ok.injEq] at h2
            subst h2
            exact ihE st operand a h1
        | listB first rest =>
            simp only [typeEvalExpr, mbind_ok] at h
            obtain ⟨a, h1, h2⟩ := h
            simp only [pure_def, Except.ok.injEq] at h2
            subst h2
            exact ihE st first a h1
      · intro st es r h
        cases es with
        | nil =>
            simp only [typeEvalArgs, pure_def, Except.ok.injEq] at h
            subst h; exact presRefl st
        | cons e es =>
            simp only [typeEvalArgs, mbind_ok] at h
            obtain ⟨a, h1, b, h2, h3⟩ := h
            simp only [pure_def, Except.ok.injEq] at h3
            subst h3
            exact presTrans (ihE st e a h1) (ihA a.1 es b h2)
      · intro st t l r h
        cases l with
        | nil =>
            simp only [typeEvalChainL, pure_def, Except.ok.injEq] at h
            subst h; exact presRefl st
        | cons i rest =>
            simp only [typeEvalChainL, mbind_ok] at h
            obtain ⟨a, h1, b, _, h3⟩ := h
            exact presTrans (ihE _ _ _ h1) (ihL _ _ _ _ h3)
      · intro st t l r h
        cases l with
        | nil =>
            simp only [typeEvalChainR, pure_def, Except.ok.injEq] at h
            subst h; exact presRefl st
        | cons i rest =>
            simp only [typeEvalChainR, mbind_ok] at h
            obtain ⟨a, h1, b, _, c, _, h4⟩ := h
            exact presTrans (ihE _ _ _ h1) (ihR _ _ _ _ h4)
      · intro st f fn args r h
        simp only [instantiateCall, mbind_ok] at h
        obtain ⟨a, h1, b, _, c, hF, d, _, e, _, h6⟩ := h
        simp only [pure_def, Except.ok.injEq] at h6
        subst h6
        refine presTrans (ihA _ _ _ h1) ?_
        refine presTrans (presChain a.1 b) ?_
        exact presTrans (ihF _ _ _ _ hF) (presChain c _)
      · intro st name types st' h
        simp only [addFunctionInstantiation] at h
        split at h
        · simp [throw_def] at h
        · rename_i fn hfn
          split at h
          · split at h
            · simp [throw_def] at h
            · rename_i key hkey
              split at h
              · simp only [pure_def, Except.ok.injEq] at h
                subst h; exact presRefl st
              · rename_i hfresh
                simp only [Bool.not_eq_true] at hfresh
                simp only [mbind_ok] at h
                obtain ⟨a, h1, h2⟩ := h
                simp only [pure_def, Except.ok.injEq] at h2
                subst h2
                exact presAddFIFinal hkey hfresh (ihSL _ _ _ _ _ h1)
          · simp [throw_def] at h
      · intro ctx st rs s r h
        cases s with
        | comment =>
            simp only [typeStmt, pure_def, Except.ok.injEq] at h
            subst h; exact presRefl st
        | init x op e =>
            simp only [typeStmt] at h
            split at h
            · simp [throw_def] at h
            · simp only [mbind_ok] at h
              obtain ⟨a, h1, b, _, h3⟩ := h
              simp only [pure_def, Except.ok.injEq] at h3
              subst h3
              exact presTrans (ihE _ _ _ h1) (presChain a.1 b)
        | assign x e =>
            simp only [typeStmt] at h
            split at h
            · simp [throw_def] at h
            · simp only [mbind_ok] at h
              obtain ⟨t0, _, h2⟩ := h
              split at h2
              · simp [throw_def] at h2
              · simp only [mbind_ok] at h2
                obtain ⟨a, h3, b, _, h5⟩ := h2
                split at h5
                · split at h5
                  · simp [throw_def] at h5
                  · simp only [pure_def, Except.ok.injEq] at h5
                    subst h5
                    exact ihE _ _ _ h3
                · split at h5
                  · simp [throw_def] at h5
                  · simp only [pure_def, Except.ok.injEq] at h5
                    subst h5
                    exact ihE _ _ _ h3
                · simp only [pure_def, Except.ok.injEq] at h5
                  subst h5
                  exact ihE _ _ _ h3
        | ifS cond tb fb =>
            simp only [typeStmt, mbind_ok] at h
            obtain ⟨a, h1, b, h2, c, h3, h4⟩ := h
            simp only [pure_def, Except.ok.injEq] at h4
            subst h4
            exact presTrans (ihE _ _ _ h1)
              (presTrans (ihSL _ _ _ _ _ h2) (ihSL _ _ _ _ _ h3))
        | whileS cond body =>
            simp only [typeStmt, mbind_ok] at h
            obtain ⟨a, h1, b, h2, h3⟩ := h
            simp only [pure_def, Except.ok.injEq] at h3
            subst h3
            refine presTrans (presChain st (([] : Frame) :: st.chain)) ?_
            refine presTrans (ihE _ _ _ h1) ?_
            exact presTrans (ihSS _ _ _ _ _ h2) (presChain b.1 b.1.chain.tail)
        | repeatS body cond =>
            simp only [typeStmt, mbind_ok] at h
            obtain ⟨a, h1, b, h2, h3⟩ := h
            simp only [pure_def, Except.ok.injEq] at h3
            subst h3
            refine presTrans (presChain st (([] : Frame) :: st.chain)) ?_
            refine presTrans (ihSS _ _ _ _ _ h1) ?_
            exact presTrans (ihE _ _ _ h2) (presChain b.1 b.1.chain.tail)
        | ret e d =>
            simp only [typeStmt] at h
            split at h
            · simp [throw_def] at h
            · simp only [mbind_ok] at h
              obtain ⟨a, h1, h2⟩ := h
              split at h2
              · simp only [pure_def, Except.ok.injEq] at h2
                subst h2
                exact ihE _ _ _ h1
              · split at h2
                · simp [throw_def] at h2
                · simp only [pure_def, Except.ok.injEq] at h2
                  subst h2
                  exact ihE _ _ _ h1
        | funcDef f ps body =>
            simp only [typeStmt] at h
            split at h
            · simp [throw_def] at h
            · simp only [mbind_ok] at h
              obtain ⟨a, h1, h2⟩ := h
              simp only [pure_def, Except.ok.injEq] at h2
              subst h2
              exact presAddTemplate h1
        | callS f args =>
            simp only [typeStmt] at h
            split at h
            · simp [throw_def] at h
            · simp only [mbind_ok] at h
              obtain ⟨a, h1, h2⟩ := h
              simp only [pure_def, Except.ok.injEq] at h2
              subst h2
              exact ihC _ _ _ _ _ h1
        | exprS e =>
            simp [typeStmt, throw_def] at h
      · intro ctx st rs l r h
        cases l with
        | nil =>
            simp only [typeStmts, pure_def, Except.ok.injEq] at h
            subst h; exact presRefl st
        | cons s rest =>
            simp only [typeStmts, mbind_ok] at h
            obtain ⟨a, h1, b, h2, h3⟩ := h
            simp only [pure_def, Except.ok.injEq] at h3
            subst h3
            exact presTrans (ihS ctx st rs s a h1) (ihSS ctx a.1 a.2.1 rest b h2)
      · intro ctx st rs l r h
        cases l with
        | nil =>
            simp only [typeStmtsChecked, pure_def, Except.ok.injEq] at h
            subst h; exact presRefl st
        | cons s rest =>
            simp only [typeStmtsChecked] at h
            split at h
            · simp [throw_def] at h
            · simp only [mbind_ok] at h
              obtain ⟨a, h1, b, h2, h3⟩ := h
              simp only [pure_def, Except.ok.injEq] at h3
              subst h3
              exact presTrans (ihS ctx st rs s a h1) (ihSC ctx a.1 a.2.1 rest b h2)
      · intro ctx st rs l r h
        simp only [typeStmtList] at h
        split at h
        · simp only [pure_def, Except.ok.injEq] at h
          subst h; exact presRefl st
        · simp only [mbind_ok] at h
          obtain ⟨a, h1, h2⟩ := h
          simp only [pure_def, Except.ok.injEq] at h2
          subst h2
          exact presTrans (presChain st (([] : Frame) :: st.chain))
            (presTrans (ihSC _ _ _ _ _ h1) (presChain a.1 a.1.chain.tail))


mutual

/-- Does a statement syntactically contain a `ReturnStmt` on a path the
statement walker can reach?  (Nested `FunctionDef` bodies are not walked by
`typeStmt`, so they are not traversed here either.) -/
def stmtHasRet : Stmt → Bool
  | .ret _ _ => true
  | .ifS _ tb fb => stmtsHaveRet tb || stmtsHaveRet fb
  | .whileS _ body => stmtsHaveRet body
  | .repeatS body _ => stmtsHaveRet body
  | _ => false

/-- `stmtHasRet` over a statement list. -/
def stmtsHaveRet : List Stmt → Bool
  | [] => false
  | s :: rest => stmtHasRet s || stmtsHaveRet rest

end

/-- Walking statements that contain no return statement leaves the
`TypeCodeGen` return-type fields (`type_is_set`, `return_type`) untouched:
only `codeGen(ReturnStmt)` writes them, and calls encountered in expressions
use a fresh `TypeCodeGen` for the callee body. -/
theorem retStateFixed (fuel : Nat) :
    (∀ ctx st rs s r, stmtHasRet s = false →
      typeStmt fuel ctx st rs s = .ok r → r.2.1 = rs) ∧
    (∀ ctx st rs l r, stmtsHaveRet l = false →
      typeStmts fuel ctx st rs l = .ok r → r.2.1 = rs) ∧
    (∀ ctx st rs l r, stmtsHaveRet l = false →
      typeStmtsChecked fuel ctx st rs l = .ok r → r.2.1 = rs) ∧
    (∀ ctx st rs l r, stmtsHaveRet l = false →
      typeStmtList fuel ctx st rs l = .ok r → r.2.1 = rs) := by
  induction fuel with
  | zero =>
      refine ⟨?_, ?_, ?_, ?_⟩
      · intro ctx st rs s r _ h; simp [typeStmt, throw_def] at h
      · intro ctx st rs l r _ h; simp [typeStmts, throw_def] at h
      · intro ctx st rs l r _ h; simp [typeStmtsChecked, throw_def] at h
      · intro ctx st rs l r _ h; simp [typeStmtList, throw_def] at h
  | succ n ih =>
      obtain ⟨ihS, ihSS, ihSC, ihSL⟩ := ih
      refine ⟨?_, ?_, ?_, ?_⟩
      · intro ctx st rs s r hnr h
        cases s with
        | comment =>
            simp only [typeStmt, pure_def, Except.ok.injEq] at h
            subst h; rfl
        | init x op e =>
            simp only [typeStmt] at h
            split at h
            · simp [throw_def] at h
            · simp only [mbind_ok] at h
              obtain ⟨a, _, b, _, h3⟩ := h
              simp only [pure_def, Except.ok.injEq] at h3
              subst h3; rfl
        | assign x e =>
            simp only [typeStmt] at h
            split at h
            · simp [throw_def] at h
            · simp only [mbind_ok] at h
              obtain ⟨t0, _, h2⟩ := h
              split at h2
              · simp [throw_def] at h2
              · simp only [mbind_ok] at h2
                obtain ⟨a, _, b, _, h5⟩ := h2
                split at h5
                · split at h5
                  · simp [throw_def] at h5
                  · simp only [pure_def, Except.ok.injEq] at h5
                    subst h5; rfl
                · split at h5
                  · simp [throw_def] at h5
                  · simp only [pure_def, Except.ok.injEq] at h5
                    subst h5; rfl
                · simp only [pure_def, Except.ok.injEq] at h5
                  subst h5; rfl
        | ifS cond tb fb =>
            simp only [stmtHasRet, Bool.or_eq_false_iff] at hnr
            simp only [typeStmt, mbind_ok] at h
            obtain ⟨a, _, b, h2, c, h3, h4⟩ := h
            simp only [pure_def, Except.ok.injEq] at h4
            subst h4
            have e2 := ihSL _ _ _ _ _ hnr.1 h2
            have e3 := ihSL _ _ _ _ _ hnr.2 h3
            simp [e3, e2]
        | whileS cond body =>
            simp only [stmtHasRet] at hnr
            simp only [typeStmt, mbind_ok] at h
            obtain ⟨a, _, b, h2, h3⟩ := h
            simp only [pure_def, Except.ok.injEq] at h3
            subst h3
            simpa using ihSS _ _ _ _ _ hnr h2
        | repeatS body cond =>
            simp only [stmtHasRet] at hnr
            simp only [typeStmt, mbind_ok] at h
            obtain ⟨a, h1, b, _, h3⟩ := h
            simp only [pure_def, Except.ok.injEq] at h3
            subst h3
            simpa using ihSS _ _ _ _ _ hnr h1
        | ret e d => simp [stmtHasRet] at hnr
        | funcDef f ps body =>
            simp only [typeStmt] at h
            split at h
            · simp [throw_def] at h
            · simp only [mbind_ok] at h
              obtain ⟨a, _, h2⟩ := h
              simp only [pure_def, Except.ok.injEq] at h2
              subst h2; rfl
        | callS f args =>
            simp only [typeStmt] at h
            split at h
            · simp [throw_def] at h
            · simp only [mbind_ok] at h
              obtain ⟨a, _, h2⟩ := h
              simp only [pure_def, Except.ok.injEq] at h2
              subst h2; rfl
        | exprS e => simp [typeStmt, throw_def] at h
      · intro ctx st rs l r hnr h
        cases l with
        | nil =>
            simp only [typeStmts, pure_def, Except.ok.injEq] at h
            subst h; rfl
        | cons s rest =>
            simp only [stmtsHaveRet, Bool.or_eq_false_iff] at hnr
            simp only [typeStmts, mbind_ok] at h
            obtain ⟨a, h1, b, h2, h3⟩ := h
            simp only [pure_def, Except.ok.injEq] at h3
            subst h3
            have e1 := ihS _ _ _ _ _ hnr.1 h1
            have e2 := ihSS _ _ _ _ _ hnr.2 h2
            simp [e2, e1]
      · intro ctx st rs l r hnr h
        cases l with
        | nil =>
            simp only [typeStmtsChecked, pure_def, Except.ok.injEq] at h
            subst h; rfl
        | cons s rest =>
            simp only [stmtsHaveRet, Bool.or_eq_false_iff] at hnr
            simp only [typeStmtsChecked] at h
            split at h
            · simp [throw_def] at h
            · simp only [mbind_ok] at h
              obtain ⟨a, h1, b, h2, h3⟩ := h
              simp only [pure_def, Except.ok.injEq] at h3
              subst h3
              have e1 := ihS _ _ _ _ _ hnr.1 h1
              have e2 := ihSC _ _ _ _ _ hnr.2 h2
              simp [e2, e1]
      · intro ctx st rs l r hnr h
        simp only [typeStmtList] at h
        split at h
        · simp only [pure_def, Except.ok.injEq] at h
          subst h; rfl
        · simp only [mbind_ok] at h
          obtain ⟨a, h1, h2⟩ := h
          simp only [pure_def, Except.ok.injEq] at h2
          subst h2
          simpa using ihSC _ _ _ _ _ hnr h1


theorem hasInstKey_find {l : List Instantiation} {key : Name}
    (h : hasInstKey l key = true) :
    ∃ i, l.find? (fun i => instKey i == some key) = some i ∧
      instKey i = some key := by
  induction l with
  | nil => simp [hasInstKey] at h
  | cons i is ih =>
      by_cases hi : instKey i == some key
      · exact ⟨i, by simp [List.find?_cons, hi], beq_iff_eq.mp hi⟩
      · have h' : hasInstKey is key = true := by
          simpa [hasInstKey, hi] using h
        obtain ⟨j, hj, hkj⟩ := ih h'
        exact ⟨j, by simp [List.find?_cons, hi, hj], hkj⟩

theorem countKey_zero_find {l : List Instantiation} {key : Name}
    (h : countKey key l = 0) :
    l.find? (fun i => instKey i == some key) = none := by
  induction l with
  | nil => rfl
  | cons i is ih =>
      by_cases hi : instKey i == some key
      · simp [countKey, List.filter_cons, hi] at h
      · have h' : countKey key is = 0 := by
          simpa [countKey, List.filter_cons, hi] using h
        simp [List.find?_cons, hi, ih h']

theorem isDefined_getType {c : Chain} {x : Name}
    (h : isDefinedChain c x = true) : ∃ t, getTypeChain c x = .ok t := by
  induction c with
  | nil => simp [isDefinedChain] at h
  | cons f rest ih =>
      rcases hf : frameFind f x with _ | t
      · have h' : isDefinedChain rest x = true := by
          simpa [isDefinedChain, hf] using h
        obtain ⟨t, ht⟩ := ih h'
        exact ⟨t, by simp [getTypeChain, hf, ht]⟩
      · exact ⟨t, by simp [getTypeChain, hf, pure_def]⟩

/-- Pushing the `Unset` placeholder for a fresh key keeps the table's keys
unique and gives the new key count exactly one. -/
theorem uniqPlaceholder {st : St} {name : Name} {types : List Ty} {key : Name}
    (hkey : mangled name types = some key)
    (hfresh : hasInstKey st.insts key = false)
    (hu : uniqueKeys st.insts) :
    uniqueKeys (st.insts ++ [⟨name, types, .prim 127, none⟩]) ∧
    countKey key (st.insts ++ [⟨name, types, .prim 127, none⟩]) = 1 := by
  have hpk : instKey (⟨name, types, Ty.prim 127, none⟩ : Instantiation)
      = some key := by simp [instKey, hkey]
  have hzero : countKey key st.insts = 0 := by
    by_contra hne
    have hpos : 0 < countKey key st.insts := Nat.pos_of_ne_zero hne
    have := (hasInstKey_iff_countKey_pos st.insts key).mpr hpos
    rw [hfresh] at this
    exact Bool.false_ne_true this
  constructor
  · intro k
    rw [countKey_append, countKey_singleton, hpk]
    by_cases hk : k = key
    · subst hk
      simp [hzero]
    · have hb : (some key == some k) = false :=
        beq_eq_false_iff_ne.mpr (by simpa using fun h => hk h.symm)
      rw [hb]
      simp only [Bool.false_eq_true, if_false]
      have := hu k
      omega
  · rw [countKey_append, countKey_singleton, hpk]
    simp [hzero]

/-- C8.  Condition lowering for control constructs applies one uniform
truthiness rule: Boolean passes through, Integer and Float lower to a
compare-not-equal-zero, Text lowers to a length-not-equal-zero compare, and
every other condition type (Nil, Complex, Object, Unset) is a hard
(internal) error.  The `if` condition path of the statement code generator
agrees with `toBoolean` on every input. -/
theorem condition_truthiness_uniform :
    (∀ v t, environmentTypeToType t = 1 → ifCondLower v t = .ok v) ∧
    (∀ v t, environmentTypeToType t = 2 →
      ifCondLower v t = .ok (.icmpNeZero v)) ∧
    (∀ v t, environmentTypeToType t = 3 →
      ifCondLower v t = .ok (.fcmpNeZero v)) ∧
    (∀ v t, environmentTypeToType t = 5 →
      ifCondLower v t = .ok (.icmpNeZero (.strLen v))) ∧
    (∀ v t, environmentTypeToType t ≠ 1 → environmentTypeToType t ≠ 2 →
      environmentTypeToType t ≠ 3 → environmentTypeToType t ≠ 5 →
      ifCondLower v t = .error (.unexpectedErr .NoBoolean)) ∧
    (∀ v t, ifCondLower v t = toBoolean v t) := by
  refine ⟨?_, ?_, ?_, ?_, ?_, ?_⟩
  · intro v t h; simp [ifCondLower, h, pure_def]
  · intro v t h; simp [ifCondLower, toBoolean, h, pure_def]
  · intro v t h; simp [ifCondLower, toBoolean, h, pure_def]
  · intro v t h; simp [ifCondLower, toBoolean, h, pure_def]
  · intro v t h1 h2 h3 h5
    rw [ifCondLower, if_neg h1]
    rw [toBoolean]
    split
    · exact absurd (by assumption) h1
    · exact absurd (by assumption) h2
    · exact absurd (by assumption) h3
    · exact absurd (by assumption) h5
    · rfl
  · intro v t
    rw [ifCondLower]
    split
    · rename_i h
      rw [toBoolean, h]
    · rfl

/-- C3.  For a return statement inside a function, the inference pass records
as its depth the current define-scope depth, and the emitted code stores the
return value into the reserved `"_return"` slot, closes exactly
`recorded − entry − 1` runtime scopes, and jumps to the exit block. -/
theorem return_scope_closing (fuel : Nat) (ctx : Ctx) (st : St) (rs : RetState)
    (e : Expr) (d0 : Int) (r : St × RetState × Stmt)
    (hfn : ctx.isFunction = true)
    (h : typeStmt (fuel + 1) ctx st rs (.ret e d0) = .ok r)
    (e' : Expr) (dRec : Int) (hr : r.2.2 = .ret e' dRec) :
    dRec = chainDepth st.chain ∧
    ∀ (entry : Int) (exprCode : List Emit), entry + 1 ≤ dRec →
      ∃ scopes : List Emit,
        codeGenReturn exprCode entry dRec =
          exprCode ++ [Emit.setVariable RETURN_VAR false] ++ scopes ++
            [Emit.brExit] ∧
        (∀ x ∈ scopes, x = Emit.endScope) ∧
        (scopes.length : Int) = dRec - entry - 1 := by
  constructor
  · simp only [typeStmt] at h
    rw [if_neg (by simp [hfn])] at h
    simp only [mbind_ok] at h
    obtain ⟨a, ha, h2⟩ := h
    have hchain : a.1.chain = st.chain := (evalsPreserveChain fuel).1 _ _ _ ha
    split at h2
    · simp only [pure_def, Except.ok.injEq] at h2
      subst h2
      simp only at hr
      cases hr
      rw [hchain]
    · split at h2
      · simp [throw_def] at h2
      · simp only [pure_def, Except.ok.injEq] at h2
        subst h2
        simp only at hr
        cases hr
        rw [hchain]
  · intro entry exprCode hle
    refine ⟨List.replicate (dRec - 1 - entry).toNat Emit.endScope, rfl, ?_, ?_⟩
    · intro x hx
      exact List.eq_of_mem_replicate hx
    · rw [List.length_replicate, Int.toNat_of_nonneg (by omega)]
      omega

/-- C7.  A comparison/equality chain (Boolean association) collapses to
static type Boolean as soon as operators are present (in particular once more
than one operator is present), and with exactly one operand the bare value's
type passes through unchanged; only the first operand is walked. -/
theorem boolean_chain_collapse :
    (∀ fuel st first rest r1, typeEvalExpr fuel st first = .ok r1 →
      2 ≤ rest.length →
      typeEvalExpr (fuel + 1) st (.listB first rest) = .ok (r1.1, .prim 1)) ∧
    (∀ fuel st first r1, typeEvalExpr fuel st first = .ok r1 →
      typeEvalExpr (fuel + 1) st (.listB first []) = .ok r1) := by
  constructor
  · intro fuel st first rest r1 h hlen
    cases rest with
    | nil => simp at hlen
    | cons p rest' =>
        simp only [typeEvalExpr, h]
        simp [Bind.bind, Except.bind, pure_def]
  · intro fuel st first r1 h
    simp only [typeEvalExpr, h]
    simp [Bind.bind, Except.bind, pure_def]


/-- One step of the left-chain type fold on primitive tags: numeric
promotion (equal tags stay, otherwise the maximum), then the
`Integer / Integer` special case promoting a true division to `Float`. -/
def foldTagsStep (t : Nat) (p : Op × Nat) : Nat :=
  if (max t p.2) = 2 ∧ p.1 = Op.Divide then 3 else max t p.2

/-- The left-chain type fold over a list of (operator, operand-tag) pairs. -/
def foldTags (a : Nat) (tags : List (Op × Nat)) : Nat :=
  tags.foldl foldTagsStep a

/-- The operands of a left-associative chain evaluate in sequence to the
given primitive tags, consuming fuel exactly as `typeEvalChainL` does. -/
inductive ChainOperandsEval : Nat → St → List (Op × Expr) → List (Op × Nat) → St → Prop where
  | nil (fuel : Nat) (st : St) : ChainOperandsEval (fuel + 1) st [] [] st
  | cons (fuel : Nat) (st st₁ st' : St) (e : Expr) (op : Op) (k : Nat)
      (rest : List (Op × Expr)) (tags : List (Op × Nat))
      (he : typeEvalExpr fuel st e = .ok (st₁, .prim k))
      (hrest : ChainOperandsEval fuel st₁ rest tags st') :
      ChainOperandsEval (fuel + 1) st ((op, e) :: rest) ((op, k) :: tags) st'

theorem foldTagsStep_mem {a k : Nat} (op : Op) (ha : a = 2 ∨ a = 3)
    (hk : k = 2 ∨ k = 3) :
    foldTagsStep a (op, k) = 2 ∨ foldTagsStep a (op, k) = 3 := by
  rcases ha with rfl | rfl <;> rcases hk with rfl | rfl <;>
    by_cases hop : op = Op.Divide <;> simp [foldTagsStep, hop]

theorem foldTags_absorb_three (tags : List (Op × Nat))
    (h : ∀ p ∈ tags, p.2 = 2 ∨ p.2 = 3) : foldTags 3 tags = 3 := by
  induction tags with
  | nil => rfl
  | cons p rest ih =>
      obtain ⟨op, k⟩ := p
      have hk := h (op, k) (List.mem_cons_self _ _)
      have hstep : foldTagsStep 3 (op, k) = 3 := by
        rcases hk with rfl | rfl <;> simp [foldTagsStep]
      show foldTags (foldTagsStep 3 (op, k)) rest = 3
      rw [hstep]
      exact ih fun p hp => h p (List.mem_cons_of_mem _ hp)

theorem foldTags_mixed (tags : List (Op × Nat)) (a : Nat)
    (hmix : a = 3 ∨ (a = 2 ∧ ∃ p ∈ tags, p.2 = 3))
    (hnum : ∀ p ∈ tags, p.2 = 2 ∨ p.2 = 3) : foldTags a tags = 3 := by
  induction tags generalizing a with
  | nil =>
      rcases hmix with rfl | ⟨_, p, hp, _⟩
      · rfl
      · simp at hp
  | cons q rest ih =>
      obtain ⟨op, k⟩ := q
      have hk := hnum (op, k) (List.mem_cons_self _ _)
      have hrest : ∀ p ∈ rest, p.2 = 2 ∨ p.2 = 3 := fun p hp =>
        hnum p (List.mem_cons_of_mem _ hp)
      rcases hmix with rfl | ⟨rfl, p, hp, hp3⟩
      · show foldTags (foldTagsStep 3 (op, k)) rest = 3
        have hstep : foldTagsStep 3 (op, k) = 3 := by
          rcases hk with rfl | rfl <;> simp [foldTagsStep]
        rw [hstep]
        exact foldTags_absorb_three rest hrest
      · show foldTags (foldTagsStep 2 (op, k)) rest = 3
        rcases hk with rfl | rfl
        · by_cases hop : op = Op.Divide
          · have hstep : foldTagsStep 2 (op, 2) = 3 := by
              simp [foldTagsStep, hop]
            rw [hstep]
            exact foldTags_absorb_three rest hrest
          · have hstep : foldTagsStep 2 (op, 2) = 2 := by
              simp [foldTagsStep, hop]
            rw [hstep]
            rcases List.mem_cons.mp hp with heq | hmem
            · rw [heq] at hp3
              simp at hp3
            · exact ih 2 (Or.inr ⟨rfl, p, hmem, hp3⟩) hrest
        · have hstep : foldTagsStep 2 (op, 3) = 3 := by
            simp [foldTagsStep]
          rw [hstep]
          exact foldTags_absorb_three rest hrest

theorem chainL_step {fuel : Nat} {st st₁ : St} {e : Expr} {op : Op}
    {k a : Nat} (he : typeEvalExpr fuel st e = .ok (st₁, .prim k))
    (ha : a = 2 ∨ a = 3) (hk : k = 2 ∨ k = 3) (rest : List (Op × Expr)) :
    typeEvalChainL (fuel + 1) st (.prim a) ((op, e) :: rest) =
      typeEvalChainL fuel st₁ (.prim (foldTagsStep a (op, k))) rest := by
  simp only [typeEvalChainL, he]
  rcases ha with rfl | rfl <;> rcases hk with rfl | rfl <;>
    by_cases hop : op = Op.Divide <;>
    simp [Bind.bind, Except.bind, promoteT, foldTagsStep, hop, pure_def]

/-- C4.  Left-associative arithmetic chains are type-inferred by a
left-to-right fold with numeric promotion; true division of two Integers
gives static type Float while floor division of two Integers stays Integer;
mixing Integer and Float anywhere in the chain yields Float. -/
theorem arithmetic_chain_typing :
    (∀ fuel st t l tags st', ChainOperandsEval fuel st l tags st' →
      (∀ p ∈ tags, p.2 = 2 ∨ p.2 = 3) → (t = 2 ∨ t = 3) →
      typeEvalChainL fuel st (.prim t) l = .ok (st', .prim (foldTags t tags))) ∧
    (∀ fuel st e1 e2 st₁ st', typeEvalExpr fuel st e1 = .ok (st₁, .prim 2) →
      ChainOperandsEval fuel st₁ [(Op.Divide, e2)] [(Op.Divide, 2)] st' →
      typeEvalExpr (fuel + 1) st (.listL e1 [(Op.Divide, e2)]) =
        .ok (st', .prim 3)) ∧
    (∀ fuel st e1 e2 st₁ st', typeEvalExpr fuel st e1 = .ok (st₁, .prim 2) →
      ChainOperandsEval fuel st₁ [(Op.FloorDivide, e2)] [(Op.FloorDivide, 2)] st' →
      typeEvalExpr (fuel + 1) st (.listL e1 [(Op.FloorDivide, e2)]) =
        .ok (st', .prim 2)) ∧
    (∀ fuel st e1 j l tags st₁ st',
      typeEvalExpr fuel st e1 = .ok (st₁, .prim j) →
      ChainOperandsEval fuel st₁ l tags st' →
      (j = 2 ∨ j = 3) → (∀ p ∈ tags, p.2 = 2 ∨ p.2 = 3) →
      (j = 3 ∨ ∃ p ∈ tags, p.2 = 3) →
      typeEvalExpr (fuel + 1) st (.listL e1 l) = .ok (st', .prim 3)) := by
  have main : ∀ fuel st l tags st', ChainOperandsEval fuel st l tags st' →
      (∀ p ∈ tags, p.2 = 2 ∨ p.2 = 3) → ∀ t, (t = 2 ∨ t = 3) →
      typeEvalChainL fuel st (.prim t) l = .ok (st', .prim (foldTags t tags)) := by
    intro fuel st l tags st' hrel
    induction hrel with
    | nil f s =>
        intro _ t _
        simp [typeEvalChainL, foldTags, pure_def]
    | cons f s s₁ s' e op k rest tags he hrest ih =>
        intro htags t ht
        have hk := htags (op, k) (List.mem_cons_self _ _)
        have htail : ∀ p ∈ tags, p.2 = 2 ∨ p.2 = 3 := fun p hp =>
          htags p (List.mem_cons_of_mem _ hp)
        rw [chainL_step he ht hk rest]
        show _ = Except.ok (s', .prim (foldTags (foldTagsStep t (op, k)) tags))
        exact ih htail _ (foldTagsStep_mem op ht hk)
  refine ⟨fun fuel st t l tags st' hrel htags ht => main fuel st l tags st' hrel htags t ht,
    ?_, ?_, ?_⟩
  · intro fuel st e1 e2 st₁ st' he1 hrel
    simp only [typeEvalExpr, he1]
    have := main _ _ _ _ _ hrel (by simp) 2 (Or.inl rfl)
    simp only [Bind.bind, Except.bind]
    rw [this]
    rfl
  · intro fuel st e1 e2 st₁ st' he1 hrel
    simp only [typeEvalExpr, he1]
    have := main _ _ _ _ _ hrel (by simp) 2 (Or.inl rfl)
    simp only [Bind.bind, Except.bind]
    rw [this]
    rfl
  · intro fuel st e1 j l tags st₁ st' he1 hrel hj htags hmix
    simp only [typeEvalExpr, he1]
    have hfold := main _ _ _ _ _ hrel htags j hj
    simp only [Bind.bind, Except.bind]
    rw [hfold]
    have : foldTags j tags = 3 := by
      apply foldTags_mixed tags j ?_ htags
      rcases hj with rfl | rfl
      · rcases hmix with h3 | hex
        · simp at h3
        · exact Or.inr ⟨rfl, hex⟩
      · exact Or.inl rfl
    rw [this]


/-- C1.  Monomorphization is idempotent: after any successful
`addFunctionInstantiation`, calling it again with the identical
(name, argument-type) signature succeeds with fuel 1 — i.e. without
re-type-checking the template body — and leaves the state (in particular the
instantiation table and so the cached return type read by
`getFunctionInstantiationType`) completely unchanged. -/
theorem monomorphization_idempotent (fuel : Nat) (st : St) (name : Name)
    (types : List Ty) (st' : St)
    (h : addFunctionInstantiation fuel st name types = .ok st') :
    addFunctionInstantiation 1 st' name types = .ok st' ∧
    ∃ rt, getFunctionInstantiationType st'.insts name types = .ok rt := by
  cases fuel with
  | zero => simp [addFunctionInstantiation, throw_def] at h
  | succ n =>
      simp only [addFunctionInstantiation] at h
      split at h
      · simp [throw_def] at h
      · rename_i fn hfn
        split at h
        · rename_i harity
          split at h
          · simp [throw_def] at h
          · rename_i key hkey
            split at h
            · rename_i hhas
              simp only [pure_def, Except.ok.injEq] at h
              subst h
              refine ⟨?_, ?_⟩
              · simp [addFunctionInstantiation, hfn, hkey, harity, hhas, pure_def]
              · obtain ⟨i, hfind, _⟩ := hasInstKey_find hhas
                exact ⟨i.returnType,
                  by simp [getFunctionInstantiationType, hkey, hfind, pure_def]⟩
            · rename_i hfresh
              simp only [Bool.not_eq_true] at hfresh
              simp only [mbind_ok] at h
              obtain ⟨r, hwalk, hpure⟩ := h
              simp only [pure_def, Except.ok.injEq] at hpure
              subst hpure
              have hP := (walkersPreserve n).2.2.2.2.2.2.2.2.2 _ _ _ _ _ hwalk
              have hfn' : funcLookup r.1.funcs name = some fn := hP.1 name fn hfn
              have hfk : instKey (⟨name, types,
                  (if r.2.1.typeIsSet then r.2.1.returnType else Ty.prim 0),
                  some r.1.chain⟩ : Instantiation) = some key := by
                simp [instKey, hkey]
              have hhas' : hasInstKey (eraseFirstInstKey key r.1.insts ++
                  [⟨name, types,
                    (if r.2.1.typeIsSet then r.2.1.returnType else Ty.prim 0),
                    some r.1.chain⟩]) key = true := by
                rw [hasInstKey_iff_countKey_pos, countKey_append,
                  countKey_singleton, hfk]
                simp
              refine ⟨?_, ?_⟩
              · simp [addFunctionInstantiation, hfn', hkey, harity, hhas', pure_def]
              · obtain ⟨i, hfind, _⟩ := hasInstKey_find hhas'
                exact ⟨i.returnType,
                  by simp [getFunctionInstantiationType, hkey, hfind, pure_def]⟩
        · simp [throw_def] at h


/-- After the fresh branch of `addFunctionInstantiation` (placeholder pushed,
body walked with net effect `Pres`, first key-match erased, final entry
appended), the key occurs exactly once and lookup finds the final entry. -/
theorem freshFinalLookup {st : St} {name : Name} {types : List Ty}
    {key : Name} {r1 : St} {rt : Ty} {sc : Option Chain}
    (hkey : mangled name types = some key)
    (hfresh : hasInstKey st.insts key = false)
    (hu : uniqueKeys st.insts)
    (hP : Pres { st with insts :=
      st.insts ++ [⟨name, types, .prim 127, none⟩] } r1) :
    countKey key (eraseFirstInstKey key r1.insts ++
      [(⟨name, types, rt, sc⟩ : Instantiation)]) = 1 ∧
    (eraseFirstInstKey key r1.insts ++
      [(⟨name, types, rt, sc⟩ : Instantiation)]).find?
        (fun i => instKey i == some key) =
      some (⟨name, types, rt, sc⟩ : Instantiation) := by
  obtain ⟨humid, hone⟩ := uniqPlaceholder hkey hfresh hu
  have hfk : instKey (⟨name, types, rt, sc⟩ : Instantiation) = some key := by
    simp [instKey, hkey]
  have hhasmid : hasInstKey
      (st.insts ++ [⟨name, types, Ty.prim 127, none⟩]) key = true := by
    rw [hasInstKey_iff_countKey_pos, hone]
    omega
  have hhasr : hasInstKey r1.insts key = true := hP.2.1 key hhasmid
  have hur : uniqueKeys r1.insts := hP.2.2 humid
  have hcr : countKey key r1.insts = 1 :=
    le_antisymm (hur key) ((hasInstKey_iff_countKey_pos r1.insts key).mp hhasr)
  have herase : countKey key (eraseFirstInstKey key r1.insts) = 0 := by
    rw [countKey_eraseFirst_self, hcr]
  constructor
  · rw [countKey_append, herase, countKey_singleton, hfk]
    simp
  · rw [List.find?_append, countKey_zero_find herase]
    simp [List.find?_cons, hfk]

/-- C10.  A function template whose body sets no return type gets `Nil`
recorded as its instantiation's return type: (a) whenever the body walk
leaves `type_is_set` false — which covers bodies whose only returns have
`Unset`-typed expressions — the recorded type is `Nil` (tag 0); (b) in
particular a body containing no return statement at all records `Nil`. -/
theorem no_return_gives_nil :
    (∀ (fuel : Nat) (st : St) (name : Name) (types : List Ty) (fn : Fn)
        (key : Name) (st' : St),
      funcLookup st.funcs name = some fn →
      types.length = fn.params.length →
      mangled name types = some key →
      hasInstKey st.insts key = false →
      uniqueKeys st.insts →
      addFunctionInstantiation (fuel + 1) st name types = .ok st' →
      ∃ r, typeStmtList fuel ⟨true⟩
          { st with insts := st.insts ++ [⟨name, types, .prim 127, none⟩] }
          ⟨false, .prim 0⟩ fn.body = .ok r ∧
        (r.2.1.typeIsSet = false →
          getFunctionInstantiationType st'.insts name types = .ok (.prim 0))) ∧
    (∀ (fuel : Nat) (st : St) (name : Name) (types : List Ty) (fn : Fn)
        (key : Name) (st' : St),
      funcLookup st.funcs name = some fn →
      types.length = fn.params.length →
      mangled name types = some key →
      hasInstKey st.insts key = false →
      uniqueKeys st.insts →
      stmtsHaveRet fn.body = false →
      addFunctionInstantiation (fuel + 1) st name types = .ok st' →
      getFunctionInstantiationType st'.insts name types = .ok (.prim 0)) := by
  have main : ∀ (fuel : Nat) (st : St) (name : Name) (types : List Ty)
      (fn : Fn) (key : Name) (st' : St),
      funcLookup st.funcs name = some fn →
      types.length = fn.params.length →
      mangled name types = some key →
      hasInstKey st.insts key = false →
      uniqueKeys st.insts →
      addFunctionInstantiation (fuel + 1) st name types = .ok st' →
      ∃ r, typeStmtList fuel ⟨true⟩
          { st with insts := st.insts ++ [⟨name, types, .prim 127, none⟩] }
          ⟨false, .prim 0⟩ fn.body = .ok r ∧
        (r.2.1.typeIsSet = false →
          getFunctionInstantiationType st'.insts name types = .ok (.prim 0)) := by
    intro fuel st name types fn key st' hfn harity hkey hfresh hu h
    simp only [addFunctionInstantiation, hfn, hkey] at h
    rw [if_pos harity] at h
    rw [if_neg (by simp [hfresh])] at h
    simp only [mbind_ok] at h
    obtain ⟨r, hwalk, hpure⟩ := h
    simp only [pure_def, Except.ok.injEq] at hpure
    subst hpure
    refine ⟨r, hwalk, fun hset => ?_⟩
    have hP := (walkersPreserve fuel).2.2.2.2.2.2.2.2.2 _ _ _ _ _ hwalk
    have hfind := (@freshFinalLookup _ _ _ _ _
      (if r.2.1.typeIsSet then r.2.1.returnType else Ty.prim 0)
      (some r.1.chain) hkey hfresh hu hP).2
    simp only [getFunctionInstantiationType, hkey]
    rw [hfind]
    simp [hset, pure_def]
  refine ⟨main, ?_⟩
  intro fuel st name types fn key st' hfn harity hkey hfresh hu hnoret h
  obtain ⟨r, hwalk, himp⟩ := main fuel st name types fn key st' hfn harity hkey
    hfresh hu h
  have := (retStateFixed fuel).2.2.2 _ _ _ _ _ hnoret hwalk
  exact himp (by rw [this])

/-- C9.  While `addFunctionInstantiation` type-checks the body of a fresh
(name, argument-type) signature, a placeholder with return type `Unset` is
present under the signature's mangled key, so (a) looking the signature up
during that walk yields `Unset`; (b) a recursive call of the same signature
is a complete no-op on the state instead of re-entering inference; (c) the
resulting `Unset` is absorbing under numeric promotion; and (d) when the
body walk finishes, exactly one entry with the key remains, carrying the
inferred return type (`Nil` when no return set a type). -/
theorem instantiation_placeholder_reuse :
    (∀ (st : St) (name : Name) (types : List Ty) (key : Name),
      mangled name types = some key →
      hasInstKey st.insts key = false →
      getFunctionInstantiationType
        (st.insts ++ [⟨name, types, .prim 127, none⟩]) name types =
        .ok (.prim 127)) ∧
    (∀ (fuel : Nat) (st : St) (name : Name) (types : List Ty) (key : Name)
        (fn : Fn),
      funcLookup st.funcs name = some fn →
      types.length = fn.params.length →
      mangled name types = some key →
      hasInstKey st.insts key = true →
      addFunctionInstantiation (fuel + 1) st name types = .ok st) ∧
    (∀ t : Nat, promoteT (.prim 127) (.prim t) = .ok 127 ∧
      promoteT (.prim t) (.prim 127) = .ok 127) ∧
    (∀ (fuel : Nat) (st : St) (name : Name) (types : List Ty) (fn : Fn)
        (key : Name) (st' : St),
      funcLookup st.funcs name = some fn →
      types.length = fn.params.length →
      mangled name types = some key →
      hasInstKey st.insts key = false →
      uniqueKeys st.insts →
      addFunctionInstantiation (fuel + 1) st name types = .ok st' →
      countKey key st'.insts = 1 ∧
      ∃ r, typeStmtList fuel ⟨true⟩
          { st with insts := st.insts ++ [⟨name, types, .prim 127, none⟩] }
          ⟨false, .prim 0⟩ fn.body = .ok r ∧
        st'.insts.find? (fun i => instKey i == some key) =
          some ⟨name, types,
            (if r.2.1.typeIsSet then r.2.1.returnType else .prim 0),
            some r.1.chain⟩) := by
  refine ⟨?_, ?_, ?_, ?_⟩
  · intro st name types key hkey hfresh
    have hzero : countKey key st.insts = 0 := by
      by_contra hne
      have hpos : 0 < countKey key st.insts := Nat.pos_of_ne_zero hne
      have := (hasInstKey_iff_countKey_pos st.insts key).mpr hpos
      rw [hfresh] at this
      exact Bool.false_ne_true this
    have hpk : instKey (⟨name, types, Ty.prim 127, none⟩ : Instantiation)
        = some key := by simp [instKey, hkey]
    simp only [getFunctionInstantiationType, hkey]
    rw [List.find?_append, countKey_zero_find hzero]
    simp [List.find?_cons, hpk, pure_def]
  · intro fuel st name types key fn hfn harity hkey hhas
    simp [addFunctionInstantiation, hfn, hkey, harity, hhas, pure_def]
  · intro t
    constructor
    · by_cases h : t = 127 <;> simp [promoteT, h, pure_def]
    · by_cases h : t = 127 <;> simp [promoteT, h, pure_def]
  · intro fuel st name types fn key st' hfn harity hkey hfresh hu h
    simp only [addFunctionInstantiation, hfn, hkey] at h
    rw [if_pos harity] at h
    rw [if_neg (by simp [hfresh])] at h
    simp only [mbind_ok] at h
    obtain ⟨r, hwalk, hpure⟩ := h
    simp only [pure_def, Except.ok.injEq] at hpure
    subst hpure
    have hP := (walkersPreserve fuel).2.2.2.2.2.2.2.2.2 _ _ _ _ _ hwalk
    have hfl := @freshFinalLookup _ _ _ _ _
      (if r.2.1.typeIsSet then r.2.1.returnType else Ty.prim 0)
      (some r.1.chain) hkey hfresh hu hP
    exact ⟨hfl.1, r, hwalk, hfl.2⟩


/-- C6 (amended).  Given that the assigned expression itself type-checks,
type inference of an assignment raises a language error exactly when the
target is undefined, or its binding is a `Constant`-flagged primitive, or
both sides are primitives with different raw tags, or both sides are Object
descriptors with different shape.  A mismatch between a primitive and an
Object descriptor is *not* raised here (both mixed cases fall through to
success); on success the state is the expression-walk state, the return
fields are untouched and the scope chain — hence the binding — is
unchanged. -/
theorem assign_inference_characterization (fuel : Nat) (ctx : Ctx) (st : St)
    (rs : RetState) (x : Name) (e : Expr) (r : St × Ty)
    (heval : typeEvalExpr fuel st e = .ok r) :
    ((∃ err, typeStmt (fuel + 1) ctx st rs (.assign x e) = .error err) ↔
      (isDefinedChain st.chain x = false ∨
        ∃ t₀, getTypeChain st.chain x = .ok t₀ ∧
          (isConstPrim t₀ = true ∨
            (∃ a b, r.2 = .prim a ∧ t₀ = .prim b ∧ a ≠ b) ∨
            (∃ c1 m1 c2 m2, r.2 = .obj c1 m1 ∧ t₀ = .obj c2 m2 ∧
              (c1 ≠ c2 ∨ tyEq (.obj c1 m1) (.obj c2 m2) = false))))) ∧
    (∀ res, typeStmt (fuel + 1) ctx st rs (.assign x e) = .ok res →
      res = (r.1, rs, .assign x e) ∧ res.1.chain = st.chain) := by
  have hchain : r.1.chain = st.chain := (evalsPreserveChain fuel).1 _ _ _ heval
  by_cases hdef : isDefinedChain st.chain x = true
  · obtain ⟨t₀, ht₀⟩ := isDefined_getType hdef
    have hdet : ∀ t', getTypeChain st.chain x = .ok t' → t' = t₀ := by
      intro t' h'
      have h2 := ht₀.symm.trans h'
      injection h2 with h3
      exact h3.symm
    by_cases hconst : isConstPrim t₀ = true
    · have heq : typeStmt (fuel + 1) ctx st rs (.assign x e) =
          .error (.logicErr .NoConstantAssign) := by
        simp [typeStmt, hdef, ht₀, hconst, Bind.bind, Except.bind, throw_def]
      refine ⟨⟨fun _ => Or.inr ⟨t₀, ht₀, Or.inl hconst⟩, fun _ => ⟨_, heq⟩⟩, ?_⟩
      intro res hres
      rw [heq] at hres
      simp at hres
    · have hconst' : isConstPrim t₀ = false := by
        simpa using hconst
      cases hR : r.2 with
      | prim a =>
          cases t₀ with
          | prim b =>
              by_cases hab : a = b
              · have heq : typeStmt (fuel + 1) ctx st rs (.assign x e) =
                    .ok (r.1, rs, .assign x e) := by
                  simp [typeStmt, hdef, ht₀, hconst', heval, hchain, hR,
                    hab, Bind.bind, Except.bind, pure_def]
                constructor
                · constructor
                  · rintro ⟨err, herr⟩
                    rw [heq] at herr
                    simp at herr
                  · rintro (h1 | ⟨t', ht', hcase⟩)
                    · rw [hdef] at h1
                      simp at h1
                    · have ht'' := hdet t' ht'
                      subst ht''
                      rcases hcase with hc | ⟨a', b', ha', hb', hne⟩ |
                          ⟨c1, m1, c2, m2, ho, _, _⟩
                      · rw [hconst'] at hc
                        simp at hc
                      · injection ha' with h1
                        injection hb' with h2
                        subst h1
                        subst h2
                        exact absurd hab hne
                      · simp at ho
                · intro res hres
                  rw [heq] at hres
                  cases hres
                  exact ⟨rfl, hchain⟩
              · have heq : typeStmt (fuel + 1) ctx st rs (.assign x e) =
                    .error (.logicErr .VarType) := by
                  simp [typeStmt, hdef, ht₀, hconst', heval, hchain, hR,
                    hab, Bind.bind, Except.bind, throw_def]
                refine ⟨⟨fun _ => Or.inr ⟨Ty.prim b, ht₀,
                  Or.inr (Or.inl ⟨a, b, rfl, rfl, hab⟩)⟩, fun _ => ⟨_, heq⟩⟩, ?_⟩
                intro res hres
                rw [heq] at hres
                simp at hres
          | obj c2 m2 =>
              have heq : typeStmt (fuel + 1) ctx st rs (.assign x e) =
                  .ok (r.1, rs, .assign x e) := by
                simp [typeStmt, hdef, ht₀, hconst', heval, hchain, hR,
                  Bind.bind, Except.bind, pure_def]
              constructor
              · constructor
                · rintro ⟨err, herr⟩
                  rw [heq] at herr
                  simp at herr
                · rintro (h1 | ⟨t', ht', hcase⟩)
                  · rw [hdef] at h1
                    simp at h1
                  · have ht'' := hdet t' ht'
                    subst ht''
                    rcases hcase with hc | ⟨a', b', _, hb', _⟩ |
                        ⟨c1', m1', c2', m2', ho, _, _⟩
                    · rw [hconst'] at hc
                      simp at hc
                    · simp at hb'
                    · simp at ho
              · intro res hres
                rw [heq] at hres
                cases hres
                exact ⟨rfl, hchain⟩
      | obj c1 m1 =>
          cases t₀ with
          | prim b =>
              have heq : typeStmt (fuel + 1) ctx st rs (.assign x e) =
                  .ok (r.1, rs, .assign x e) := by
                simp [typeStmt, hdef, ht₀, hconst', heval, hchain, hR,
                  Bind.bind, Except.bind, pure_def]
              constructor
              · constructor
                · rintro ⟨err, herr⟩
                  rw [heq] at herr
                  simp at herr
                · rintro (h1 | ⟨t', ht', hcase⟩)
                  · rw [hdef] at h1
                    simp at h1
                  · have ht'' := hdet t' ht'
                    subst ht''
                    rcases hcase with hc | ⟨a', b', ha', _, _⟩ |
                        ⟨c1', m1', c2', m2', _, hb', _⟩
                    · rw [hconst'] at hc
                      simp at hc
                    · simp at ha'
                    · simp at hb'
              · intro res hres
                rw [heq] at hres
                cases hres
                exact ⟨rfl, hchain⟩
          | obj c2 m2 =>
              by_cases hcond : c1 ≠ c2 ∨ tyEq (.obj c1 m1) (.obj c2 m2) = false
              · have heq : typeStmt (fuel + 1) ctx st rs (.assign x e) =
                    .error (.logicErr .ObjectType) := by
                  simp [typeStmt, hdef, ht₀, hconst', heval, hchain, hR,
                    hcond, Bind.bind, Except.bind, throw_def]
                refine ⟨⟨fun _ => Or.inr ⟨Ty.obj c2 m2, ht₀, Or.inr (Or.inr
                  ⟨c1, m1, c2, m2, rfl, rfl, hcond⟩)⟩, fun _ => ⟨_, heq⟩⟩, ?_⟩
                intro res hres
                rw [heq] at hres
                simp at hres
              · have heq : typeStmt (fuel + 1) ctx st rs (.assign x e) =
                    .ok (r.1, rs, .assign x e) := by
                  simp [typeStmt, hdef, ht₀, hconst', heval, hchain, hR,
                    hcond, Bind.bind, Except.bind, pure_def]
                constructor
                · constructor
                  · rintro ⟨err, herr⟩
                    rw [heq] at herr
                    simp at herr
                  · rintro (h1 | ⟨t', ht', hcase⟩)
                    · rw [hdef] at h1
                      simp at h1
                    · have ht'' := hdet t' ht'
                      subst ht''
                      rcases hcase with hc | ⟨a', b', ha', _, _⟩ |
                          ⟨c1', m1', c2', m2', ha', hb', hcc⟩
                      · rw [hconst'] at hc
                        simp at hc
                      · simp at ha'
                      · injection ha' with h1 h2
                        injection hb' with h3 h4
                        subst h1
                        subst h2
                        subst h3
                        subst h4
                        exact absurd hcc hcond
                · intro res hres
                  rw [heq] at hres
                  cases hres
                  exact ⟨rfl, hchain⟩
  · have hdef' : isDefinedChain st.chain x = false := by
      simpa using hdef
    have heq : typeStmt (fuel + 1) ctx st rs (.assign x e) =
        .error (.logicErr .VarNotExist) := by
      simp [typeStmt, hdef', throw_def]
    refine ⟨⟨fun _ => Or.inl hdef', fun _ => ⟨_, heq⟩⟩, ?_⟩
    intro res hres
    rw [heq] at hres
    simp at hres

/-- C5 (amended).  Return-statement rules of the inference pass: a return
outside a function body is `ReturnOnlyInFunc`; a return that is not the final
statement of a statement list walked as a block (function body, if/else
branch, case arm) is `ReturnAtEnd`; the first return whose expression type is
not `Unset` fixes the function's return type; a later type-setting return
raises `FuncTypeSet` exactly when its type differs structurally from the
fixed one; a return whose expression type is `Unset` is skipped.  (Statements
inside while/repeat loop bodies are walked individually, without the
final-position check — see the counterexample.) -/
theorem return_statement_rules :
    (∀ fuel st rs (e : Expr) (d : Int),
      typeStmt (fuel + 1) ⟨false⟩ st rs (.ret e d) =
        .error (.logicErr .ReturnOnlyInFunc)) ∧
    (∀ fuel ctx st rs (e : Expr) (d : Int) (s : Stmt) (rest : List Stmt),
      typeStmtsChecked (fuel + 1) ctx st rs (.ret e d :: s :: rest) =
        .error (.logicErr .ReturnAtEnd)) ∧
    (∀ fuel ctx st rs (e : Expr) (d : Int) (s : Stmt) (rest : List Stmt),
      typeStmtList (fuel + 2) ctx st rs (.ret e d :: s :: rest) =
        .error (.logicErr .ReturnAtEnd)) ∧
    (∀ fuel ctx st rs (e : Expr) (d : Int) a,
      ctx.isFunction = true → rs.typeIsSet = false →
      typeEvalExpr fuel st e = .ok a → isUnsetPrim a.2 = false →
      typeStmt (fuel + 1) ctx st rs (.ret e d) =
        .ok (a.1, ⟨true, a.2⟩, .ret e (chainDepth a.1.chain))) ∧
    (∀ fuel ctx st rs (e : Expr) (d : Int) a,
      ctx.isFunction = true → rs.typeIsSet = true →
      typeEvalExpr fuel st e = .ok a → isUnsetPrim a.2 = false →
      tyEq a.2 rs.returnType = false →
      typeStmt (fuel + 1) ctx st rs (.ret e d) =
        .error (.logicErr .FuncTypeSet)) ∧
    (∀ fuel ctx st rs (e : Expr) (d : Int) a,
      ctx.isFunction = true → rs.typeIsSet = true →
      typeEvalExpr fuel st e = .ok a → isUnsetPrim a.2 = false →
      tyEq a.2 rs.returnType = true →
      typeStmt (fuel + 1) ctx st rs (.ret e d) =
        .ok (a.1, ⟨true, a.2⟩, .ret e (chainDepth a.1.chain))) ∧
    (∀ fuel ctx st rs (e : Expr) (d : Int) a,
      ctx.isFunction = true →
      typeEvalExpr fuel st e = .ok a → isUnsetPrim a.2 = true →
      typeStmt (fuel + 1) ctx st rs (.ret e d) =
        .ok (a.1, rs, .ret e (chainDepth a.1.chain))) := by
  refine ⟨?_, ?_, ?_, ?_, ?_, ?_, ?_⟩
  · intro fuel st rs e d
    simp [typeStmt, throw_def]
  · intro fuel ctx st rs e d s rest
    simp [typeStmtsChecked, isRetStmt, throw_def]
  · intro fuel ctx st rs e d s rest
    simp [typeStmtList, typeStmtsChecked, isRetStmt, throw_def, pushFrame,
      Bind.bind, Except.bind]
  · intro fuel ctx st rs e d a hf hset he hu
    simp [typeStmt, hf, he, hu, hset, Bind.bind, Except.bind, pure_def]
  · intro fuel ctx st rs e d a hf hset he hu hne
    simp [typeStmt, hf, he, hu, hset, hne, Bind.bind, Except.bind, throw_def]
  · intro fuel ctx st rs e d a hf hset he hu heq
    simp [typeStmt, hf, he, hu, hset, heq, Bind.bind, Except.bind, pure_def]
  · intro fuel ctx st rs e d a hf he hu
    simp [typeStmt, hf, he, hu, Bind.bind, Except.bind, pure_def]

/-- Counterexample to C5 as stated: a return statement that is *not* the
final statement of its enclosing statement list — the body of a while loop —
passes type inference without any error (the loop body is walked
statement-by-statement, skipping the `ReturnAtEnd` check), and even fixes
the function's return type. -/
theorem return_mid_while_accepted :
    ∃ st', addFunctionInstantiation 10
        ⟨[[], []],
         [(strBytes "w", ⟨[], [.whileS (.value 1)
            [.ret (.value 2) (-1), .comment]]⟩)], [], []⟩
        (strBytes "w") [] = .ok st' ∧
      getFunctionInstantiationType st'.insts (strBytes "w") [] =
        .ok (.prim 2) :=
  ⟨_, rfl, rfl⟩

/-- C2 failing input: the name mangling function is not injective on
(name, parameter-type list) pairs.  The qualified method name `f.a__` (class
`f`, method `a__` — all characters legal identifier characters) with no
parameters and the plain name `f` with one parameter of Object type (class
`a`, no members) produce the identical mangled key `"f.a__"`, although both
the names and the type lists differ. -/
theorem mangled_collision :
    mangled (strBytes "f.a__") [] = some (strBytes "f.a__") ∧
    mangled (strBytes "f") [.obj (strBytes "a") []] = some (strBytes "f.a__") ∧
    strBytes "f.a__" ≠ strBytes "f" ∧
    ([] : List Ty).length ≠ ([Ty.obj (strBytes "a") []] : List Ty).length :=
  ⟨rfl, rfl, by decide, by decide⟩


/-- Counterexample to C6 as stated: assigning an Object-typed value (a
constructor call of class `C`) to a variable bound to Integer passes type
inference with no error, although the assigned expression's static type
differs from the binding's type. -/
theorem assign_prim_obj_mismatch_accepted :
    typeStmt 3 ⟨false⟩ ⟨[[(strBytes "x", .prim 2)]], [], [strBytes "C"], []⟩
        ⟨false, .prim 0⟩ (.assign (strBytes "x") (.call (strBytes "C") [])) =
      .ok (⟨[[(strBytes "x", .prim 2)]], [], [strBytes "C"], []⟩,
        ⟨false, .prim 0⟩, .assign (strBytes "x") (.call (strBytes "C") [])) ∧
    tyEq (.obj (strBytes "C") []) (.prim 2) = false :=
  ⟨rfl, rfl⟩

theorem monomorphization_idempotent_witness :
    ∃ st', addFunctionInstantiation 10
        ⟨[[(strBytes "x", .prim 18)], []],
         [(strBytes "f", ⟨[strBytes "x"], [.ret (.var (strBytes "x")) (-1)]⟩)],
         [], []⟩
        (strBytes "f") [.prim 2] = .ok st' ∧
      addFunctionInstantiation 1 st' (strBytes "f") [.prim 2] = .ok st' := by
  refine ⟨_, rfl, ?_⟩
  exact (monomorphization_idempotent 10
    ⟨[[(strBytes "x", .prim 18)], []],
     [(strBytes "f", ⟨[strBytes "x"], [.ret (.var (strBytes "x")) (-1)]⟩)],
     [], []⟩ (strBytes "f") [.prim 2] _ rfl).1

theorem return_scope_closing_witness :
    typeStmt 2 ⟨true⟩ ⟨[[], [], [], []], [], [], []⟩ ⟨false, .prim 0⟩
        (.ret (.value 2) (-1)) =
      .ok (⟨[[], [], [], []], [], [], []⟩, ⟨true, .prim 2⟩,
        .ret (.value 2) 3) ∧
    ((3 : Int) = chainDepth ([[], [], [], []] : Chain) ∧
      ∀ (entry : Int) (exprCode : List Emit), entry + 1 ≤ 3 →
        ∃ scopes : List Emit, codeGenReturn exprCode entry 3 =
          exprCode ++ [Emit.setVariable RETURN_VAR false] ++ scopes ++
            [Emit.brExit] ∧
          (∀ x ∈ scopes, x = Emit.endScope) ∧
          (scopes.length : Int) = 3 - entry - 1) :=
  ⟨rfl, return_scope_closing 1 ⟨true⟩ ⟨[[], [], [], []], [], [], []⟩
    ⟨false, .prim 0⟩ (.value 2) (-1) _ rfl rfl (.value 2) 3 rfl⟩

theorem arithmetic_chain_typing_witness :
    typeEvalExpr 3 ⟨[[]], [], [], []⟩
        (.listL (.value 2) [(Op.Divide, .value 2)]) =
      .ok (⟨[[]], [], [], []⟩, .prim 3) ∧
    typeEvalExpr 3 ⟨[[]], [], [], []⟩
        (.listL (.value 2) [(Op.FloorDivide, .value 2)]) =
      .ok (⟨[[]], [], [], []⟩, .prim 2) ∧
    typeEvalExpr 3 ⟨[[]], [], [], []⟩
        (.listL (.value 2) [(Op.Plus, .value 3)]) =
      .ok (⟨[[]], [], [], []⟩, .prim 3) := by
  refine ⟨?_, ?_, ?_⟩
  · exact arithmetic_chain_typing.2.1 2 ⟨[[]], [], [], []⟩ (.value 2)
      (.value 2) ⟨[[]], [], [], []⟩ ⟨[[]], [], [], []⟩ rfl
      (.cons 1 ⟨[[]], [], [], []⟩ ⟨[[]], [], [], []⟩ ⟨[[]], [], [], []⟩
        (.value 2) Op.Divide 2 [] [] rfl (.nil 0 ⟨[[]], [], [], []⟩))
  · exact arithmetic_chain_typing.2.2.1 2 ⟨[[]], [], [], []⟩ (.value 2)
      (.value 2) ⟨[[]], [], [], []⟩ ⟨[[]], [], [], []⟩ rfl
      (.cons 1 ⟨[[]], [], [], []⟩ ⟨[[]], [], [], []⟩ ⟨[[]], [], [], []⟩
        (.value 2) Op.FloorDivide 2 [] [] rfl (.nil 0 ⟨[[]], [], [], []⟩))
  · exact arithmetic_chain_typing.2.2.2 2 ⟨[[]], [], [], []⟩ (.value 2) 2
      [(Op.Plus, .value 3)] [(Op.Plus, 3)] ⟨[[]], [], [], []⟩
      ⟨[[]], [], [], []⟩ rfl
      (.cons 1 ⟨[[]], [], [], []⟩ ⟨[[]], [], [], []⟩ ⟨[[]], [], [], []⟩
        (.value 3) Op.Plus 3 [] [] rfl (.nil 0 ⟨[[]], [], [], []⟩))
      (Or.inl rfl) (by decide) (Or.inr ⟨(Op.Plus, 3), List.Mem.head _, rfl⟩)

theorem return_statement_rules_witness :
    typeStmt 2 ⟨true⟩ ⟨[[]], [], [], []⟩ ⟨false, .prim 0⟩
        (.ret (.value 2) (-1)) =
      .ok (⟨[[]], [], [], []⟩, ⟨true, .prim 2⟩, .ret (.value 2) 0) ∧
    typeStmt 2 ⟨true⟩ ⟨[[]], [], [], []⟩ ⟨true, .prim 3⟩
        (.ret (.value 2) (-1)) =
      .error (.logicErr .FuncTypeSet) :=
  ⟨return_statement_rules.2.2.2.1 1 ⟨true⟩ ⟨[[]], [], [], []⟩
      ⟨false, .prim 0⟩ (.value 2) (-1) (⟨[[]], [], [], []⟩, .prim 2)
      rfl rfl rfl rfl,
   return_statement_rules.2.2.2.2.1 1 ⟨true⟩ ⟨[[]], [], [], []⟩
      ⟨true, .prim 3⟩ (.value 2) (-1) (⟨[[]], [], [], []⟩, .prim 2)
      rfl rfl rfl rfl rfl⟩

theorem assign_inference_characterization_witness :
    ∃ err, typeStmt 3 ⟨false⟩ ⟨[[(strBytes "x", Ty.prim 2)]], [], [], []⟩
        ⟨false, Ty.prim 0⟩ (.assign (strBytes "x") (.value 3)) =
      .error err :=
  (assign_inference_characterization 2 ⟨false⟩
      ⟨[[(strBytes "x", Ty.prim 2)]], [], [], []⟩ ⟨false, Ty.prim 0⟩
      (strBytes "x") (.value 3)
      (⟨[[(strBytes "x", Ty.prim 2)]], [], [], []⟩, .prim 3) rfl).1.mpr
    (Or.inr ⟨.prim 2, rfl, Or.inr (Or.inl ⟨3, 2, rfl, rfl, by decide⟩)⟩)

theorem boolean_chain_collapse_witness :
    typeEvalExpr 2 ⟨[[]], [], [], []⟩
        (.listB (.value 2) [(Op.Less, .value 2), (Op.Less, .value 2)]) =
      .ok (⟨[[]], [], [], []⟩, .prim 1) ∧
    typeEvalExpr 2 ⟨[[]], [], [], []⟩ (.listB (.value 2) []) =
      .ok (⟨[[]], [], [], []⟩, .prim 2) :=
  ⟨boolean_chain_collapse.1 1 ⟨[[]], [], [], []⟩ (.value 2)
      [(Op.Less, .value 2), (Op.Less, .value 2)]
      (⟨[[]], [], [], []⟩, .prim 2) rfl (by decide),
   boolean_chain_collapse.2 1 ⟨[[]], [], [], []⟩ (.value 2)
      (⟨[[]], [], [], []⟩, .prim 2) rfl⟩

theorem condition_truthiness_uniform_witness :
    ifCondLower (.sym 0) (.prim 1) = .ok (.sym 0) ∧
    ifCondLower (.sym 0) (.prim 2) = .ok (.icmpNeZero (.sym 0)) ∧
    ifCondLower (.sym 0) (.prim 0) = .error (.unexpectedErr .NoBoolean) :=
  ⟨condition_truthiness_uniform.1 (.sym 0) (.prim 1) rfl,
   condition_truthiness_uniform.2.1 (.sym 0) (.prim 2) rfl,
   condition_truthiness_uniform.2.2.2.2.1 (.sym 0) (.prim 0)
     (by decide) (by decide) (by decide) (by decide)⟩

theorem instantiation_placeholder_reuse_witness :
    getFunctionInstantiationType
        [⟨strBytes "f", [.prim 2], .prim 127, none⟩]
        (strBytes "f") [.prim 2] = .ok (.prim 127) ∧
    addFunctionInstantiation 1
        ⟨[[(strBytes "n", .prim 18)], []],
         [(strBytes "f", ⟨[strBytes "n"],
            [.ret (.listL (.call (strBytes "f") [.var (strBytes "n")])
              [(Op.Plus, .value 2)]) (-1)]⟩)], [],
         [⟨strBytes "f", [.prim 2], .prim 127, none⟩]⟩
        (strBytes "f") [.prim 2] =
      .ok ⟨[[(strBytes "n", .prim 18)], []],
         [(strBytes "f", ⟨[strBytes "n"],
            [.ret (.listL (.call (strBytes "f") [.var (strBytes "n")])
              [(Op.Plus, .value 2)]) (-1)]⟩)], [],
         [⟨strBytes "f", [.prim 2], .prim 127, none⟩]⟩ ∧
    promoteT (.prim 127) (.prim 2) = .ok 127 ∧
    (∃ st', addFunctionInstantiation 11
        ⟨[[(strBytes "n", .prim 18)], []],
         [(strBytes "f", ⟨[strBytes "n"],
            [.ret (.listL (.call (strBytes "f") [.var (strBytes "n")])
              [(Op.Plus, .value 2)]) (-1)]⟩)], [], []⟩
        (strBytes "f") [.prim 2] = .ok st' ∧
      countKey (strBytes "f.2") st'.insts = 1) := by
  refine ⟨?_, ?_, ?_, ?_⟩
  · exact instantiation_placeholder_reuse.1 ⟨[], [], [], []⟩ (strBytes "f")
      [.prim 2] (strBytes "f.2") rfl rfl
  · exact instantiation_placeholder_reuse.2.1 0
      ⟨[[(strBytes "n", .prim 18)], []],
       [(strBytes "f", ⟨[strBytes "n"],
          [.ret (.listL (.call (strBytes "f") [.var (strBytes "n")])
            [(Op.Plus, .value 2)]) (-1)]⟩)], [],
       [⟨strBytes "f", [.prim 2], .prim 127, none⟩]⟩
      (strBytes "f") [.prim 2] (strBytes "f.2")
      ⟨[strBytes "n"], [.ret (.listL (.call (strBytes "f")
        [.var (strBytes "n")]) [(Op.Plus, .value 2)]) (-1)]⟩
      rfl rfl rfl rfl
  · exact (instantiation_placeholder_reuse.2.2.1 2).1
  · refine ⟨_, rfl, ?_⟩
    exact (instantiation_placeholder_reuse.2.2.2 10
      ⟨[[(strBytes "n", .prim 18)], []],
       [(strBytes "f", ⟨[strBytes "n"],
          [.ret (.listL (.call (strBytes "f") [.var (strBytes "n")])
            [(Op.Plus, .value 2)]) (-1)]⟩)], [], []⟩
      (strBytes "f") [.prim 2]
      ⟨[strBytes "n"], [.ret (.listL (.call (strBytes "f")
        [.var (strBytes "n")]) [(Op.Plus, .value 2)]) (-1)]⟩
      (strBytes "f.2") _ rfl rfl rfl rfl
      (fun k => by simp [countKey]) rfl).1

theorem no_return_gives_nil_witness :
    ∃ st', addFunctionInstantiation 6
        ⟨[[], []], [(strBytes "g", ⟨[], [.comment]⟩)], [], []⟩
        (strBytes "g") [] = .ok st' ∧
      getFunctionInstantiationType st'.insts (strBytes "g") [] =
        .ok (.prim 0) := by
  refine ⟨_, rfl, ?_⟩
  exact no_return_gives_nil.2 5
    ⟨[[], []], [(strBytes "g", ⟨[], [.comment]⟩)], [], []⟩
    (strBytes "g") [] ⟨[], [.comment]⟩ (strBytes "g") _
    rfl rfl rfl rfl (fun k => by simp [countKey]) rfl rfl

end Abaci

